import Mathlib

/-!
# LRU cache of the C web server (`src/cache.c`)

A shallow embedding of `cache.c`.  The C heap that holds the `struct cache_entry`
objects is an explicit list of cells; a non-null pointer to an entry is the index
of its cell, `NULL` is `none`.  Every function that dereferences a pointer returns
an `Option`: `none` stands for the dereference of `NULL` (or of an address that was
never allocated), which is undefined behaviour in C.

C `int` values (`cur_size`, `max_size`, `content_length`) are mathematical integers.  In
the states reached from `cache_create` with `max_size >= 1` the counter `cur_size` stays
between `0` and `max_size + 1`, so the increments and decrements of `cache.c` stay inside
the range of `int` whenever `max_size < INT_MAX`.

The hashtable (`hashtable.h`) is a collaborator whose code is not part of `cache.c`; it
is modelled by an association list with the contract the specification gives for it.
-/

namespace CWebServer

/-! ## Data model -/

/-- One `struct cache_entry`: the payload fields and the two list links. -/
structure cache_entry where
  path : String
  content_type : String
  content : List Nat
  content_length : Int
  prev : Option Nat
  next : Option Nat
deriving DecidableEq, Repr

/-- The `struct cache` together with the heap cells of its entries (`mem`).
`index` is the hashtable from paths to entry pointers. -/
structure cache where
  mem : List cache_entry
  index : List (String × Nat)
  head : Option Nat
  tail : Option Nat
  cur_size : Int
  max_size : Int
deriving DecidableEq, Repr

/-! ## The key index (hashtable collaborator) -/

/-- Modelled from the spec: `hashtable_create` of `hashtable.h`, whose code is not
part of the sources; section 6 of the specification gives
`create(size_hint, destructor|none) -> Index`, an empty index. -/
def hashtable_create (_hashsize : Int) : List (String × Nat) := []

/-- Modelled from the spec: `hashtable_get` of `hashtable.h`;
`get(index, key) -> opaque-ref | absent`. -/
def hashtable_get : List (String × Nat) → String → Option Nat
  | [], _ => none
  | (k, v) :: rest, key => if k = key then some v else hashtable_get rest key

/-- Modelled from the spec: `hashtable_delete` of `hashtable.h`;
`delete(index, key) -> void`, a no-op when the key is absent. -/
def hashtable_delete (ht : List (String × Nat)) (key : String) : List (String × Nat) :=
  ht.filter (fun kv => decide (kv.1 ≠ key))

/-- Modelled from the spec: `hashtable_put` of `hashtable.h`;
`put(index, key, value) -> void` with overwrite semantics on a duplicate key. -/
def hashtable_put (ht : List (String × Nat)) (key : String) (v : Nat) : List (String × Nat) :=
  (key, v) :: hashtable_delete ht key

/-! ## Heap access -/

/-- Write through a pointer: `p->field = ...`.  Fails on `NULL` and on an
address outside the heap. -/
def store (mem : List cache_entry) (p : Option Nat) (f : cache_entry → cache_entry) :
    Option (List cache_entry) :=
  match p with
  | none => none
  | some a =>
    match mem[a]? with
    | none => none
    | some e => some (mem.set a (f e))

/-- Read through a pointer: `p->field`. -/
def load (mem : List cache_entry) (p : Option Nat) : Option cache_entry :=
  match p with
  | none => none
  | some a => mem[a]?

/-! ## The functions of `cache.c` -/

/-- `alloc_entry`: `malloc` hands out the next unused cell; the four payload
fields are written, the links are left for `dllist_insert_head` to set (it writes
both before anything reads them). -/
def alloc_entry (c : cache) (path content_type : String) (content : List Nat)
    (content_length : Int) : Nat × cache :=
  (c.mem.length,
   { c with mem := c.mem ++ [{ path := path, content_type := content_type,
                               content := content, content_length := content_length,
                               prev := none, next := none }] })

/-- `dllist_insert_head`. -/
def dllist_insert_head (c : cache) (ce : Nat) : Option cache :=
  match c.head with
  | none => do
    -- cache->head = cache->tail = ce;  ce->prev = ce->next = NULL;
    let m1 ← store c.mem (some ce) (fun e => { e with next := none })
    let m2 ← store m1 (some ce) (fun e => { e with prev := none })
    some { c with head := some ce, tail := some ce, mem := m2 }
  | some h => do
    -- cache->head->prev = ce;
    let m1 ← store c.mem (some h) (fun e => { e with prev := some ce })
    -- ce->next = cache->head;
    let m2 ← store m1 (some ce) (fun e => { e with next := some h })
    -- ce->prev = NULL;
    let m3 ← store m2 (some ce) (fun e => { e with prev := none })
    -- cache->head = ce;
    some { c with mem := m3, head := some ce }

/-- `dllist_move_to_head`. -/
def dllist_move_to_head (c : cache) (ce : Nat) : Option cache :=
  if some ce ≠ c.head then
    Option.bind
      (if some ce = c.tail then do
        -- We're the tail
        -- cache->tail = ce->prev;
        let e ← load c.mem (some ce)
        let c1 : cache := { c with tail := e.prev }
        -- cache->tail->next = NULL;
        let m ← store c1.mem c1.tail (fun t => { t with next := none })
        some { c1 with mem := m }
      else do
        -- We're neither the head nor the tail
        -- ce->prev->next = ce->next;
        let e ← load c.mem (some ce)
        let m1 ← store c.mem e.prev (fun a => { a with next := e.next })
        -- ce->next->prev = ce->prev;
        let e1 ← load m1 (some ce)
        let m2 ← store m1 e1.next (fun b => { b with prev := e1.prev })
        some { c with mem := m2 })
      (fun c1 => do
        -- ce->next = cache->head;
        let m3 ← store c1.mem (some ce) (fun e => { e with next := c1.head })
        -- cache->head->prev = ce;
        let m4 ← store m3 c1.head (fun h => { h with prev := some ce })
        -- ce->prev = NULL;
        let m5 ← store m4 (some ce) (fun e => { e with prev := none })
        -- cache->head = ce;
        some { c1 with mem := m5, head := some ce })
  else
    some c

/-- `dllist_remove_tail`: returns the old tail and the new state. -/
def dllist_remove_tail (c : cache) : Option (Nat × cache) := do
  -- struct cache_entry *oldtail = cache->tail;
  let oldtail ← c.tail
  -- cache->tail = oldtail->prev;
  let e ← load c.mem (some oldtail)
  let c1 : cache := { c with tail := e.prev }
  -- cache->tail->next = NULL;
  let m ← store c1.mem c1.tail (fun t => { t with next := none })
  -- cache->cur_size--;
  some (oldtail, { c1 with mem := m, cur_size := c1.cur_size - 1 })

/-- `cache_create`: the returned pointer is never `NULL`. -/
def cache_create (max_size hashsize : Int) : Option cache :=
  some { mem := [], head := none, tail := none, cur_size := 0, max_size := max_size,
         index := hashtable_create hashsize }

/-- `cache_put` (the `printf` trace is not modelled). -/
def cache_put (c : cache) (path content_type : String) (content : List Nat)
    (content_length : Int) : Option cache := do
  let (entry, c1) := alloc_entry c path content_type content content_length
  let c2 ← dllist_insert_head c1 entry
  let c3 : cache := { c2 with cur_size := c2.cur_size + 1 }
  let c4 : cache := { c3 with index := hashtable_put c3.index path entry }
  if c4.cur_size > c4.max_size then do
    let (cache_item, c5) ← dllist_remove_tail c4
    -- hashtable_delete(cache->index, cache_item->path);
    let item ← load c5.mem (some cache_item)
    some { c5 with index := hashtable_delete c5.index item.path }
  else
    some c4

/-- `cache_get`: the returned pointer (`none` is `NULL`) and the new state. -/
def cache_get (c : cache) (path : String) : Option (Option Nat × cache) :=
  match hashtable_get c.index path with
  | none => some (none, c)
  | some entry => do
    let c1 ← dllist_move_to_head c entry
    some (some entry, c1)

/-! ## Observation functions -/

/-- The caller-supplied part of an entry (everything but the links). -/
structure Payload where
  path : String
  content_type : String
  content : List Nat
  content_length : Int
deriving DecidableEq, Repr

/-- Payload of an entry. -/
def cache_entry.payload (e : cache_entry) : Payload :=
  { path := e.path, content_type := e.content_type, content := e.content,
    content_length := e.content_length }

/-- Follow `next` pointers starting at `p`, for at most `fuel` entries. -/
def walk (mem : List cache_entry) : Nat → Option Nat → List Nat
  | 0, _ => []
  | _ + 1, none => []
  | fuel + 1, some a =>
    match mem[a]? with
    | none => []
    | some e => a :: walk mem fuel e.next

/-- The entries reachable from `head` by following `next` (head to tail).  A list
without a cycle has at most as many entries as there are heap cells. -/
def entries (c : cache) : List Nat := walk c.mem c.mem.length c.head

/-- Path stored in the entry at address `a`. -/
def path_at (c : cache) (a : Nat) : Option String := (c.mem[a]?).map (fun e => e.path)

/-- Payload stored in the entry at address `a`. -/
def payload_at (c : cache) (a : Nat) : Option Payload := (c.mem[a]?).map cache_entry.payload

/-- The paths of the list entries, head to tail. -/
def keys (c : cache) : List String := (entries c).filterMap (path_at c)

/-! ## Well-formed doubly-linked segments -/

/-- First address of `xs`, or `nx` when `xs` is empty. -/
def headOr : List Nat → Option Nat → Option Nat
  | [], nx => nx
  | y :: _, _ => some y

/-- Last address of `xs`, or `pv` when `xs` is empty. -/
def lastOr : List Nat → Option Nat → Option Nat
  | [], pv => pv
  | x :: xs, _ => lastOr xs (some x)

/-- The cells `xs` form a doubly-linked segment: the `prev` of the first one is `pv`,
the `next` of the last one is `nx`, and neighbours point at each other. -/
def seg (mem : List cache_entry) : Option Nat → List Nat → Option Nat → Prop
  | _, [], _ => True
  | pv, x :: xs, nx =>
    ∃ e, mem[x]? = some e ∧ e.prev = pv ∧ e.next = headOr xs nx ∧ seg mem (some x) xs nx

/-- The recency list of `c` is the well-formed doubly-linked list `L` (head to tail). -/
structure Links (c : cache) (L : List Nat) : Prop where
  nodup : L.Nodup
  chain : seg c.mem none L none
  head_eq : c.head = L.head?
  tail_eq : c.tail = L.getLast?

/-- What the list operations leave alone: the index, the capacity and the payload
of every heap cell. -/
structure Frame (c c' : cache) : Prop where
  index_eq : c'.index = c.index
  max_eq : c'.max_size = c.max_size
  stored_eq : c'.mem.map cache_entry.payload = c.mem.map cache_entry.payload

/-- Well-formed cache state with recency list `L`: the links are sound, `cur_size`
counts the list and respects the capacity, and every index mapping points at a list
entry that carries the mapped key.  This holds with and without duplicate keys. -/
structure Inv (c : cache) (L : List Nat) : Prop where
  links : Links c L
  size : c.cur_size = L.length
  bound : c.cur_size ≤ c.max_size
  cap : 1 ≤ c.max_size
  sound : ∀ k p, hashtable_get c.index k = some p → p ∈ L ∧ path_at c p = some k

/-- Every list entry is the one the index maps its key to (so keys are distinct). -/
def Complete (c : cache) (L : List Nat) : Prop :=
  ∀ p ∈ L, ∀ k, path_at c p = some k → hashtable_get c.index k = some p

/-! ## Call sequences -/

/-- One call of the public interface. -/
inductive Op where
  | put (path content_type : String) (content : List Nat) (content_length : Int)
  | get (path : String)
deriving DecidableEq, Repr

/-- The key a call is about. -/
def Op.key : Op → String
  | .put path _ _ _ => path
  | .get path => path

/-- Perform one call and keep the resulting state. -/
def step (c : cache) : Op → Option cache
  | .put path content_type content content_length =>
    cache_put c path content_type content content_length
  | .get path => (cache_get c path).map Prod.snd

/-- Perform a sequence of calls, first to last. -/
def run : cache → List Op → Option cache
  | c, [] => some c
  | c, op :: ops => (step c op).bind (fun c' => run c' ops)

/-- The call does not put a key that some list entry already carries. -/
def fresh (c : cache) : Op → Bool
  | .put path _ _ _ => decide (path ∉ keys c)
  | .get _ => true

/-- No call of the sequence puts a key while it is already in the cache. -/
def fresh_puts : cache → List Op → Bool
  | _, [] => true
  | c, op :: ops =>
    fresh c op &&
      (match step c op with
       | some c' => fresh_puts c' ops
       | none => true)

/-- The payload a call asks the cache to store, if it is a put. -/
def Op.stores : Op → List Payload
  | .put path content_type content content_length =>
    [{ path := path, content_type := content_type, content := content,
       content_length := content_length }]
  | .get _ => []

/-- The payloads handed to the puts of a call sequence, in call order. -/
def put_payloads : List Op → List Payload
  | [] => []
  | op :: ops => op.stores ++ put_payloads ops

/-- The payloads held by the heap cells, in allocation order. -/
def stored (c : cache) : List Payload := c.mem.map cache_entry.payload

/-- Position, counted from 1, of the last call of `ops` that puts or gets the key `k`;
0 when no call of `ops` is about `k`. -/
def last_use (ops : List Op) (k : String) : Nat :=
  ops.length - (ops.reverse.map Op.key).indexOf k

/-- The put call that stores the payload `pl` under its path. -/
def Payload.as_put (pl : Payload) : Op :=
  .put pl.path pl.content_type pl.content pl.content_length

/-- The addresses `n - 1, ..., 1, 0`: the recency list after `n` puts into an empty cache
that has room for them. -/
def descending : Nat → List Nat
  | 0 => []
  | n + 1 => n :: descending n

/-! ## Link well-formedness, spelled out on the pointers -/

/-- Follow `prev` pointers starting at `p`, for at most `fuel` entries. -/
def walk_back (mem : List cache_entry) : Nat → Option Nat → List Nat
  | 0, _ => []
  | _ + 1, none => []
  | fuel + 1, some a =>
    match mem[a]? with
    | none => []
    | some e => a :: walk_back mem fuel e.prev

/-- The entries reachable from `tail` by following `prev` (tail to head). -/
def entries_back (c : cache) : List Nat := walk_back c.mem c.mem.length c.tail

/-- The `next` field of the entry at address `a` (`none` if there is no such cell). -/
def next_at (c : cache) (a : Nat) : Option (Option Nat) := (c.mem[a]?).map (fun e => e.next)

/-- The `prev` field of the entry at address `a` (`none` if there is no such cell). -/
def prev_at (c : cache) (a : Nat) : Option (Option Nat) := (c.mem[a]?).map (fun e => e.prev)

/-- The recency list is a sound doubly-linked list: `head->prev` and `tail->next` are `NULL`,
neighbours in the head-to-tail sequence point at each other, `tail` is the last entry
reached from `head`, the walk from `tail` along `prev` is the reverse of the walk from
`head` along `next`, and no entry is met twice. -/
structure WellLinked (c : cache) : Prop where
  head_prev : ∀ h, c.head = some h → prev_at c h = some none
  tail_next : ∀ t, c.tail = some t → next_at c t = some none
  adjacent : ∀ i x y, (entries c)[i]? = some x → (entries c)[i + 1]? = some y →
    next_at c x = some (some y) ∧ prev_at c y = some (some x)
  head_first : c.head = (entries c).head?
  tail_last : c.tail = (entries c).getLast?
  backward : entries_back c = (entries c).reverse
  nodup : (entries c).Nodup

/-- A full cache (`max_size = 2`) holding `b` at the head and `a` at the tail; used to
instantiate the theorems. -/
def two_entry_cache : cache :=
  { mem := [⟨"a", "text", [1], 1, some 1, none⟩, ⟨"b", "html", [2, 3], 2, none, some 0⟩],
    index := [("b", 1), ("a", 0)], head := some 1, tail := some 0, cur_size := 2,
    max_size := 2 }

/-! ## Lemmas on the heap and on segments -/

theorem headOr_none (xs : List Nat) : headOr xs none = xs.head? := by
  cases xs <;> rfl

theorem headOr_append (xs ys : List Nat) (nx : Option Nat) :
    headOr (xs ++ ys) nx = headOr xs (headOr ys nx) := by
  cases xs <;> rfl

theorem lastOr_append (xs ys : List Nat) (pv : Option Nat) :
    lastOr (xs ++ ys) pv = lastOr ys (lastOr xs pv) := by
  induction xs generalizing pv with
  | nil => rfl
  | cons x xs ih => simp [lastOr, ih]

theorem lastOr_cons_ne (x : Nat) (xs : List Nat) (pv pv' : Option Nat) :
    lastOr (x :: xs) pv = lastOr (x :: xs) pv' := rfl

theorem lastOr_none (xs : List Nat) : lastOr xs none = xs.getLast? := by
  rcases List.eq_nil_or_concat xs with h | ⟨ys, y, h⟩
  · subst h; rfl
  · subst h
    simp [List.concat_eq_append, lastOr_append, lastOr, List.getLast?_concat]

theorem store_eq {mem : List cache_entry} {a : Nat} {e : cache_entry}
    (h : mem[a]? = some e) (f : cache_entry → cache_entry) :
    store mem (some a) f = some (mem.set a (f e)) := by
  simp [store, h]

theorem lt_of_getElem? {mem : List cache_entry} {a : Nat} {e : cache_entry}
    (h : mem[a]? = some e) : a < mem.length := by
  rcases List.getElem?_eq_some.1 h with ⟨h', _⟩
  exact h'

theorem get_set_same {mem : List cache_entry} {a : Nat} {e : cache_entry}
    (h : mem[a]? = some e) (e' : cache_entry) : (mem.set a e')[a]? = some e' := by
  simp [List.getElem?_set_self (lt_of_getElem? h)]

theorem get_set_other {mem : List cache_entry} {a b : Nat} (h : a ≠ b) (e' : cache_entry) :
    (mem.set a e')[b]? = mem[b]? := by
  simp [List.getElem?_set_ne h]

theorem seg_valid {mem : List cache_entry} {pv nx : Option Nat} {L : List Nat}
    (h : seg mem pv L nx) : ∀ x ∈ L, ∃ e, mem[x]? = some e := by
  induction L generalizing pv with
  | nil => intro x hx; cases hx
  | cons y ys ih =>
    obtain ⟨e, he, _, _, hrest⟩ := h
    intro x hx
    rcases List.mem_cons.1 hx with rfl | hx
    · exact ⟨e, he⟩
    · exact ih hrest x hx

theorem seg_frame {mem : List cache_entry} {pv nx : Option Nat} {L : List Nat}
    {a : Nat} (e' : cache_entry) (ha : a ∉ L) (h : seg mem pv L nx) :
    seg (mem.set a e') pv L nx := by
  induction L generalizing pv with
  | nil => trivial
  | cons y ys ih =>
    obtain ⟨e, he, hp, hn, hrest⟩ := h
    have hy : a ≠ y := fun hay => ha (by simp [hay])
    have hys : a ∉ ys := fun hay => ha (by simp [hay])
    exact ⟨e, by rw [get_set_other hy]; exact he, hp, hn, ih hys hrest⟩

theorem seg_grow {mem : List cache_entry} {pv nx : Option Nat} {L : List Nat}
    (ext : List cache_entry) (h : seg mem pv L nx) : seg (mem ++ ext) pv L nx := by
  induction L generalizing pv with
  | nil => trivial
  | cons y ys ih =>
    obtain ⟨e, he, hp, hn, hrest⟩ := h
    exact ⟨e, by rw [List.getElem?_append_left (lt_of_getElem? he)]; exact he, hp, hn, ih hrest⟩

theorem seg_append {mem : List cache_entry} {pv nx : Option Nat} {A B : List Nat} :
    seg mem pv (A ++ B) nx ↔ seg mem pv A (headOr B nx) ∧ seg mem (lastOr A pv) B nx := by
  induction A generalizing pv with
  | nil => simp [seg, lastOr]
  | cons x xs ih =>
    have hh : headOr (xs ++ B) nx = headOr xs (headOr B nx) := headOr_append xs B nx
    constructor
    · rintro ⟨e, he, hp, hn, h⟩
      exact ⟨⟨e, he, hp, hh ▸ hn, (ih.1 h).1⟩, (ih.1 h).2⟩
    · rintro ⟨⟨e, he, hp, hn, h1⟩, h2⟩
      exact ⟨e, he, hp, hh ▸ hn, ih.2 ⟨h1, h2⟩⟩

theorem map_payload_set {mem : List cache_entry} {a : Nat} {e e' : cache_entry}
    (h : mem[a]? = some e) (hp : e'.payload = e.payload) :
    (mem.set a e').map cache_entry.payload = mem.map cache_entry.payload := by
  apply List.ext_getElem?
  intro i
  rw [List.getElem?_map, List.getElem?_map]
  by_cases hi : a = i
  · subst hi
    rw [get_set_same h, h]
    simp [hp]
  · rw [get_set_other hi]

theorem store_frame {mem m : List cache_entry} {p : Option Nat} {f : cache_entry → cache_entry}
    (h : store mem p f = some m) (hf : ∀ e, (f e).payload = e.payload) :
    m.map cache_entry.payload = mem.map cache_entry.payload := by
  cases p with
  | none => simp [store] at h
  | some a =>
    cases he : mem[a]? with
    | none => simp [store, he] at h
    | some e =>
      rw [store_eq he] at h
      cases h
      exact map_payload_set he (hf e)

theorem Frame.refl (c : cache) : Frame c c := ⟨rfl, rfl, rfl⟩

theorem Frame.trans {a b c : cache} (h1 : Frame a b) (h2 : Frame b c) : Frame a c :=
  ⟨h2.index_eq.trans h1.index_eq, h2.max_eq.trans h1.max_eq, h2.stored_eq.trans h1.stored_eq⟩

theorem Links.valid {c : cache} {L : List Nat} (h : Links c L) :
    ∀ x ∈ L, ∃ e, c.mem[x]? = some e := seg_valid h.chain

theorem insert_head_spec {c : cache} {L : List Nat} {ce : Nat} {e : cache_entry}
    (hL : Links c L) (hce : ce ∉ L) (he : c.mem[ce]? = some e) :
    ∃ c', dllist_insert_head c ce = some c' ∧ Links c' (ce :: L) := by
  cases L with
  | nil =>
    have hh : c.head = none := hL.head_eq
    refine ⟨{ c with head := some ce, tail := some ce,
                     mem := (c.mem.set ce { e with next := none }).set ce
                              { e with next := none, prev := none } }, ?_, ?_⟩
    · simp [dllist_insert_head, hh, store_eq he, store_eq (get_set_same he _)]
    · refine ⟨by simp, ?_, rfl, rfl⟩
      exact ⟨_, get_set_same (get_set_same he _) _, rfl, rfl, trivial⟩
  | cons h T =>
    have hh : c.head = some h := hL.head_eq
    obtain ⟨eh, heh, hpv, hnx, hseg⟩ := hL.chain
    have hne : h ≠ ce := fun hx => hce (by simp [hx])
    have hT : ce ∉ T := fun hx => hce (by simp [hx])
    have hhT : h ∉ T := (List.nodup_cons.1 hL.nodup).1
    have h1 : (c.mem.set h { eh with prev := some ce })[ce]? = some e := by
      rw [get_set_other hne]; exact he
    refine ⟨{ c with head := some ce,
                     mem := ((c.mem.set h { eh with prev := some ce }).set ce
                              { e with next := some h }).set ce
                              { e with next := some h, prev := none } }, ?_, ?_⟩
    · simp [dllist_insert_head, hh, store_eq heh, store_eq h1, store_eq (get_set_same h1 _)]
    · refine ⟨List.nodup_cons.2 ⟨hce, hL.nodup⟩, ?_, rfl, ?_⟩
      · refine ⟨_, get_set_same (get_set_same h1 _) _, rfl, rfl, ?_⟩
        apply seg_frame _ hce
        apply seg_frame _ hce
        exact ⟨_, get_set_same heh _, rfl, hnx, seg_frame _ hhT hseg⟩
      · show c.tail = _
        rw [hL.tail_eq]; simp

theorem insert_head_frame {c c' : cache} {ce : Nat} (h : dllist_insert_head c ce = some c') :
    Frame c c' ∧ c'.cur_size = c.cur_size := by
  unfold dllist_insert_head at h
  split at h
  · simp only [Option.bind_eq_bind, Option.bind_eq_some] at h
    obtain ⟨m1, h1, m2, h2, h⟩ := h
    cases h
    exact ⟨⟨rfl, rfl, (store_frame h2 (fun _ => rfl)).trans (store_frame h1 (fun _ => rfl))⟩, rfl⟩
  · simp only [Option.bind_eq_bind, Option.bind_eq_some] at h
    obtain ⟨m1, h1, m2, h2, m3, h3, h⟩ := h
    cases h
    exact ⟨⟨rfl, rfl, (store_frame h3 (fun _ => rfl)).trans
      ((store_frame h2 (fun _ => rfl)).trans (store_frame h1 (fun _ => rfl)))⟩, rfl⟩




theorem seg_set_last {mem : List cache_entry} {pv nx : Option Nat} {A : List Nat} {a : Nat}
    {ea : cache_entry} (nx' : Option Nat) (h : seg mem pv (A ++ [a]) nx) (ha : a ∉ A)
    (hea : mem[a]? = some ea) :
    seg (mem.set a { ea with next := nx' }) pv (A ++ [a]) nx' := by
  rw [seg_append] at h ⊢
  obtain ⟨hA, e, he, hp, _, _⟩ := h
  rw [hea] at he
  cases he
  exact ⟨seg_frame _ ha hA, _, get_set_same hea _, hp, rfl, trivial⟩

theorem seg_set_first {mem : List cache_entry} {pv nx : Option Nat} {B : List Nat} {b : Nat}
    {eb : cache_entry} (pv' : Option Nat) (h : seg mem pv (b :: B) nx) (hb : b ∉ B)
    (heb : mem[b]? = some eb) :
    seg (mem.set b { eb with prev := pv' }) pv' (b :: B) nx := by
  obtain ⟨e, he, _, hn, hB⟩ := h
  rw [heb] at he
  cases he
  exact ⟨_, get_set_same heb _, rfl, hn, seg_frame _ hb hB⟩

theorem remove_tail_frame {c c' : cache} {t : Nat} (h : dllist_remove_tail c = some (t, c')) :
    Frame c c' ∧ c'.cur_size = c.cur_size - 1 ∧ c'.head = c.head := by
  unfold dllist_remove_tail at h
  simp only [Option.bind_eq_bind, Option.bind_eq_some] at h
  obtain ⟨t', _, e, _, m, hm, h⟩ := h
  simp only [Option.some.injEq, Prod.mk.injEq] at h
  obtain ⟨_, rfl⟩ := h
  exact ⟨⟨rfl, rfl, store_frame hm (fun _ => rfl)⟩, rfl, rfl⟩

theorem remove_tail_spec {c : cache} {L : List Nat} (hL : Links c L) (hlen : 2 ≤ L.length) :
    ∃ t c', dllist_remove_tail c = some (t, c') ∧ L.getLast? = some t ∧
      Links c' L.dropLast := by
  rcases List.eq_nil_or_concat L with h | ⟨L1, t, h⟩
  · subst h; simp at hlen
  rcases List.eq_nil_or_concat L1 with h1 | ⟨A, a, h1⟩
  · subst h h1; simp at hlen
  rw [List.concat_eq_append] at h h1
  subst h1
  subst h
  have hnd := hL.nodup
  rw [List.nodup_append] at hnd
  obtain ⟨hnd1, _, hdisj⟩ := hnd
  have haA : a ∉ A := by
    rw [List.nodup_append] at hnd1
    intro hx
    exact hnd1.2.2 hx (by simp)
  have hchain := hL.chain
  rw [seg_append] at hchain
  obtain ⟨hseg1, et, het, hpt, _, _⟩ := hchain
  have hpt' : et.prev = some a := by
    rw [hpt, lastOr_append]; rfl
  obtain ⟨ea, hea⟩ := seg_valid hseg1 a (by simp)
  have htail : c.tail = some t := by rw [hL.tail_eq]; simp
  refine ⟨t, { c with tail := some a, mem := c.mem.set a { ea with next := none },
                      cur_size := c.cur_size - 1 }, ?_, by simp, ?_⟩
  · simp [dllist_remove_tail, htail, load, het, hpt', store_eq hea]
  · rw [List.dropLast_concat]
    refine ⟨hnd1, seg_set_last none hseg1 haA hea, ?_, ?_⟩
    · show c.head = _
      rw [hL.head_eq]
      cases A <;> simp
    · simp

theorem move_to_head_frame {c c' : cache} {ce : Nat} (h : dllist_move_to_head c ce = some c') :
    Frame c c' ∧ c'.cur_size = c.cur_size := by
  unfold dllist_move_to_head at h
  split at h
  · simp only [Option.bind_eq_bind, Option.bind_eq_some] at h
    obtain ⟨c1, hc1, m3, h3, m4, h4, m5, h5, h⟩ := h
    cases h
    have hF1 : Frame c c1 ∧ c1.cur_size = c.cur_size := by
      split at hc1
      · simp only [Option.bind_eq_bind, Option.bind_eq_some] at hc1
        obtain ⟨e, _, m, hm, h⟩ := hc1
        cases h
        exact ⟨⟨rfl, rfl, store_frame hm (fun _ => rfl)⟩, rfl⟩
      · simp only [Option.bind_eq_bind, Option.bind_eq_some] at hc1
        obtain ⟨e, _, m1, hm1, e1, _, m2, hm2, h⟩ := hc1
        cases h
        exact ⟨⟨rfl, rfl, (store_frame hm2 (fun _ => rfl)).trans
          (store_frame hm1 (fun _ => rfl))⟩, rfl⟩
    refine ⟨⟨hF1.1.index_eq, hF1.1.max_eq, ?_⟩, hF1.2⟩
    exact (store_frame h5 (fun _ => rfl)).trans ((store_frame h4 (fun _ => rfl)).trans
      ((store_frame h3 (fun _ => rfl)).trans hF1.1.stored_eq))
  · cases h
    exact ⟨Frame.refl _, rfl⟩

theorem relink_head {c1 : cache} {R : List Nat} {p : Nat} {ep : cache_entry}
    (hR : Links c1 R) (hne : R ≠ []) (hp : p ∉ R) (hep : c1.mem[p]? = some ep) :
    ∃ m3 m4 m5,
      store c1.mem (some p) (fun e => { e with next := c1.head }) = some m3 ∧
      store m3 c1.head (fun h => { h with prev := some p }) = some m4 ∧
      store m4 (some p) (fun e => { e with prev := none }) = some m5 ∧
      Links { c1 with mem := m5, head := some p } (p :: R) := by
  cases R with
  | nil => exact absurd rfl hne
  | cons h T =>
    have hh : c1.head = some h := hR.head_eq
    obtain ⟨eh, heh, _, hnx, hseg⟩ := hR.chain
    have hph : p ≠ h := fun hx => hp (by simp [hx])
    have hhT : h ∉ T := (List.nodup_cons.1 hR.nodup).1
    have h3 : (c1.mem.set p { ep with next := some h })[h]? = some eh := by
      rw [get_set_other hph]; exact heh
    have h4 : ((c1.mem.set p { ep with next := some h }).set h
        { eh with prev := some p })[p]? = some { ep with next := some h } := by
      rw [get_set_other (Ne.symm hph)]; exact get_set_same hep _
    refine ⟨c1.mem.set p { ep with next := some h },
      (c1.mem.set p { ep with next := some h }).set h { eh with prev := some p },
      ((c1.mem.set p { ep with next := some h }).set h { eh with prev := some p }).set p
        { ep with next := some h, prev := none }, ?_, ?_, ?_, ?_⟩
    · rw [hh]; exact store_eq hep _
    · rw [hh]; exact store_eq h3 _
    · exact store_eq h4 _
    · refine ⟨List.nodup_cons.2 ⟨hp, hR.nodup⟩, ?_, rfl, ?_⟩
      · refine ⟨_, get_set_same h4 _, rfl, rfl, ?_⟩
        apply seg_frame _ hp
        exact seg_set_first (some p) (seg_frame _ hp hR.chain) hhT h3
      · show c1.tail = _
        rw [hR.tail_eq]; simp

theorem unlink_spec {c : cache} {L : List Nat} {p : Nat}
    (hL : Links c L) (hp : p ∈ L) (hne : some p ≠ c.head) :
    ∃ c1 ep,
      (if some p = c.tail then do
        let e ← load c.mem (some p)
        let c1 : cache := { c with tail := e.prev }
        let m ← store c1.mem c1.tail (fun t => { t with next := none })
        some { c1 with mem := m }
      else do
        let e ← load c.mem (some p)
        let m1 ← store c.mem e.prev (fun a => { a with next := e.next })
        let e1 ← load m1 (some p)
        let m2 ← store m1 e1.next (fun b => { b with prev := e1.prev })
        some { c with mem := m2 }) = some c1 ∧
      Links c1 (L.erase p) ∧ c1.mem[p]? = some ep ∧ L.erase p ≠ [] := by
  obtain ⟨S, B, hSB⟩ := List.append_of_mem hp
  subst hSB
  have hnd := hL.nodup
  rw [List.nodup_append] at hnd
  obtain ⟨hndS, hndpB, hdisj⟩ := hnd
  have hpS : p ∉ S := fun hx => hdisj hx (by simp)
  have hpB : p ∉ B := (List.nodup_cons.1 hndpB).1
  have hndB : B.Nodup := (List.nodup_cons.1 hndpB).2
  have herase : (S ++ p :: B).erase p = S ++ B := by
    rw [List.erase_append_right _ hpS, List.erase_cons_head]
  rcases List.eq_nil_or_concat S with hS | ⟨A, a, hS⟩
  · subst hS
    exact absurd (by rw [hL.head_eq]; rfl) hne
  rw [List.concat_eq_append] at hS
  subst hS
  have hap : a ≠ p := fun hx => hpS (by simp [hx])
  have haA : a ∉ A := by
    rw [List.nodup_append] at hndS
    intro hx
    exact hndS.2.2 hx (by simp)
  have haB : a ∉ B := fun hx => hdisj (by simp) (List.mem_cons_of_mem _ hx)
  have hchain := hL.chain
  rw [seg_append] at hchain
  obtain ⟨hsegS, ep, hep, hpp, hpn, hsegB⟩ := hchain
  have hpp' : ep.prev = some a := by rw [hpp, lastOr_append]; rfl
  obtain ⟨ea, hea⟩ := seg_valid hsegS a (by simp)
  rw [herase]
  have hndR : (A ++ [a] ++ B).Nodup := by
    rw [List.nodup_append]
    exact ⟨hndS, hndB, fun x hx hxB => hdisj hx (List.mem_cons_of_mem _ hxB)⟩
  have hhead : c.head = (A ++ [a] ++ B).head? := by
    rw [hL.head_eq]; cases A <;> rfl
  cases B with
  | nil =>
    have htail : some p = c.tail := by rw [hL.tail_eq]; simp
    refine ⟨{ c with tail := some a, mem := c.mem.set a { ea with next := none } }, ep, ?_, ?_, ?_, by simp⟩
    · simp [← htail, load, hep, hpp', store_eq hea]
    · refine ⟨hndR, ?_, hhead, by simp⟩
      rw [List.append_nil]
      exact seg_set_last none hsegS haA hea
    · show (c.mem.set a _)[p]? = _
      rw [get_set_other hap]; exact hep
  | cons b B' =>
    have hpb : p ≠ b := fun hx => hpB (by simp [hx])
    have hab : a ≠ b := fun hx => haB (by simp [hx])
    have hbB' : b ∉ B' := (List.nodup_cons.1 hndB).1
    have hbS : b ∉ A ++ [a] := fun hx => hdisj hx (by simp)
    have htail : ¬ some p = c.tail := by
      rw [hL.tail_eq]
      intro hx
      have : p ∈ b :: B' := by
        have h2 : (A ++ [a] ++ p :: b :: B').getLast? = (b :: B').getLast? := by
          rw [List.getLast?_append, List.getLast?_cons_cons,
            List.getLast?_eq_getLast (b :: B') (by simp)]
          rfl
        rw [h2] at hx
        exact List.mem_of_mem_getLast? hx.symm
      exact hpB this
    have hpn' : ep.next = some b := hpn
    obtain ⟨eb, heb⟩ := seg_valid hsegB b (by simp)
    have h1p : (c.mem.set a { ea with next := some b })[p]? = some ep := by
      rw [get_set_other hap]; exact hep
    have h1b : (c.mem.set a { ea with next := some b })[b]? = some eb := by
      rw [get_set_other hab]; exact heb
    refine ⟨{ c with mem := (c.mem.set a { ea with next := some b }).set b { eb with prev := some a } },
      ep, ?_, ?_, ?_, by simp⟩
    · simp [htail, load, hep, hpp', hpn', store_eq hea, h1p, store_eq h1b]
    · refine ⟨hndR, ?_, hhead, ?_⟩
      · rw [seg_append]
        constructor
        · apply seg_frame _ hbS
          exact seg_set_last (some b) hsegS haA hea
        · have hl : lastOr (A ++ [a]) none = some a := by rw [lastOr_append]; rfl
          rw [hl]
          exact seg_set_first (some a) (seg_frame _ haB hsegB) hbB' h1b
      · show c.tail = _
        rw [hL.tail_eq]; simp
    · show ((c.mem.set a _).set b _)[p]? = _
      rw [get_set_other (Ne.symm hpb), get_set_other hap]; exact hep

theorem move_to_head_spec {c : cache} {L : List Nat} {p : Nat}
    (hL : Links c L) (hp : p ∈ L) :
    ∃ c', dllist_move_to_head c p = some c' ∧ Links c' (p :: L.erase p) := by
  by_cases hne : some p = c.head
  · refine ⟨c, by simp [dllist_move_to_head, hne], ?_⟩
    cases L with
    | nil => cases hp
    | cons h T =>
      have : p = h := by
        rw [hL.head_eq] at hne
        exact Option.some.inj hne
      subst this
      rw [List.erase_cons_head]
      exact hL
  · obtain ⟨c1, ep, h1, hL1, hep, hR⟩ := unlink_spec hL hp hne
    have hpR : p ∉ L.erase p := fun hx => (List.Nodup.mem_erase_iff hL.nodup).1 hx |>.1 rfl
    obtain ⟨m3, m4, m5, h3, h4, h5, hL'⟩ := relink_head hL1 hR hpR hep
    refine ⟨_, ?_, hL'⟩
    unfold dllist_move_to_head
    rw [if_pos hne, h1]
    simp only [Option.bind_eq_bind, Option.some_bind, h3, h4, h5]

theorem hashtable_get_delete (ht : List (String × Nat)) (k k' : String) :
    hashtable_get (hashtable_delete ht k) k' = if k = k' then none else hashtable_get ht k' := by
  induction ht with
  | nil => simp [hashtable_delete, hashtable_get]
  | cons kv rest ih =>
    obtain ⟨k0, v0⟩ := kv
    unfold hashtable_delete at ih ⊢
    by_cases h0 : k0 = k
    · subst h0
      rw [List.filter_cons_of_neg (by simp), ih]
      by_cases h1 : k0 = k'
      · simp [h1]
      · simp [h1, hashtable_get]
    · rw [List.filter_cons_of_pos (by simpa using h0)]
      by_cases h1 : k0 = k'
      · subst h1
        simp [hashtable_get, Ne.symm h0]
      · simp only [hashtable_get, if_neg h1, ih]

theorem hashtable_get_put (ht : List (String × Nat)) (k k' : String) (v : Nat) :
    hashtable_get (hashtable_put ht k v) k' = if k = k' then some v else hashtable_get ht k' := by
  unfold hashtable_put
  by_cases h : k = k'
  · simp [hashtable_get, h]
  · simp only [hashtable_get, if_neg h, hashtable_get_delete]

theorem walk_seg {mem : List cache_entry} {pv : Option Nat} {L : List Nat}
    (h : seg mem pv L none) (fuel : Nat) (hf : L.length ≤ fuel) :
    walk mem fuel L.head? = L := by
  induction L generalizing pv fuel with
  | nil => cases fuel <;> rfl
  | cons x xs ih =>
    obtain ⟨e, he, _, hn, hrest⟩ := h
    cases fuel with
    | zero => simp at hf
    | succ f =>
      have hf' : xs.length ≤ f := by simpa using hf
      simp only [List.head?_cons, walk, he]
      rw [hn, headOr_none, ih hrest f hf']

theorem length_le_of_nodup_lt {L : List Nat} {n : Nat} (hnd : L.Nodup) (hlt : ∀ x ∈ L, x < n) :
    L.length ≤ n := by
  have hsub : L ⊆ List.range n := fun x hx => List.mem_range.2 (hlt x hx)
  have := (List.subperm_of_subset hnd hsub).length_le
  simpa using this

theorem Links.length_le {c : cache} {L : List Nat} (h : Links c L) : L.length ≤ c.mem.length :=
  length_le_of_nodup_lt h.nodup (fun x hx => by
    obtain ⟨e, he⟩ := h.valid x hx
    exact lt_of_getElem? he)

theorem Links.entries_eq {c : cache} {L : List Nat} (h : Links c L) : entries c = L := by
  unfold entries
  rw [h.head_eq]
  exact walk_seg h.chain _ h.length_le

theorem Links.unique {c : cache} {L L' : List Nat} (h : Links c L) (h' : Links c L') : L = L' := by
  rw [← h.entries_eq, ← h'.entries_eq]

theorem Links.congr {c c' : cache} {L : List Nat} (h : Links c L) (hm : c'.mem = c.mem)
    (hh : c'.head = c.head) (ht : c'.tail = c.tail) : Links c' L :=
  ⟨h.nodup, hm ▸ h.chain, hh.trans h.head_eq, ht.trans h.tail_eq⟩

theorem payload_of_map_eq {m m' : List cache_entry} {ext : List Payload} {a : Nat}
    {e : cache_entry}
    (h : m'.map cache_entry.payload = m.map cache_entry.payload ++ ext) (he : m[a]? = some e) :
    ∃ e', m'[a]? = some e' ∧ e'.payload = e.payload := by
  have h1 : (m'.map cache_entry.payload)[a]? = some e.payload := by
    rw [h, List.getElem?_append_left (by simpa using lt_of_getElem? he), List.getElem?_map, he]
    rfl
  rw [List.getElem?_map] at h1
  cases hm : m'[a]? with
  | none => rw [hm] at h1; cases h1
  | some e' =>
    rw [hm] at h1
    exact ⟨e', rfl, by simpa using h1⟩

theorem cache_put_spec {c : cache} {L : List Nat} (hI : Inv c L) (k ct : String)
    (co : List Nat) (len : Int) :
    ∃ c', cache_put c k ct co len = some c' ∧
      c'.mem.map cache_entry.payload = c.mem.map cache_entry.payload ++ [⟨k, ct, co, len⟩] ∧
      c'.max_size = c.max_size ∧
      ((c.cur_size < c.max_size ∧ Links c' (c.mem.length :: L) ∧
          c'.cur_size = c.cur_size + 1 ∧
          c'.index = hashtable_put c.index k c.mem.length) ∨
       (c.cur_size = c.max_size ∧ ∃ t et, L.getLast? = some t ∧ c.mem[t]? = some et ∧
          Links c' (c.mem.length :: L.dropLast) ∧ c'.cur_size = c.cur_size ∧
          c'.index = hashtable_delete (hashtable_put c.index k c.mem.length) et.path)) := by
  have hnew : c.mem.length ∉ L := fun hx => by
    obtain ⟨e, he⟩ := hI.links.valid _ hx
    exact absurd (lt_of_getElem? he) (lt_irrefl _)
  have hL1 : Links { c with mem := c.mem ++ [cache_entry.mk k ct co len none none] } L :=
    ⟨hI.links.nodup, seg_grow _ hI.links.chain, hI.links.head_eq, hI.links.tail_eq⟩
  obtain ⟨c2, hins, hL2⟩ := insert_head_spec hL1 hnew (List.getElem?_concat_length _ _)
  obtain ⟨hF2, hsz2⟩ := insert_head_frame hins
  have hst2 : c2.mem.map cache_entry.payload =
      c.mem.map cache_entry.payload ++ [⟨k, ct, co, len⟩] := by
    rw [hF2.stored_eq]; simp [cache_entry.payload]
  have hidx2 : c2.index = c.index := hF2.index_eq
  have hmax2 : c2.max_size = c.max_size := hF2.max_eq
  have hsz2' : c2.cur_size = c.cur_size := hsz2
  by_cases hev : c.cur_size + 1 > c.max_size
  · -- eviction
    have hfull : c.cur_size = c.max_size := by have := hI.bound; omega
    have hlen : 2 ≤ (c.mem.length :: L).length := by
      have h1 := hI.size
      have h2 := hI.cap
      simp only [List.length_cons]
      omega
    have hL4 : Links { c2 with cur_size := c2.cur_size + 1, index := hashtable_put c2.index k c.mem.length } (c.mem.length :: L) :=
      hL2.congr rfl rfl rfl
    obtain ⟨t, c5, hrem, hlast, hL5⟩ := remove_tail_spec hL4 hlen
    obtain ⟨hF5, hsz5, _⟩ := remove_tail_frame hrem
    have hLne : L ≠ [] := by
      intro hx; subst hx; simp at hlen
    have hlast' : L.getLast? = some t := by
      cases L with
      | nil => exact absurd rfl hLne
      | cons x xs => simpa using hlast
    have htL : t ∈ L := List.mem_of_mem_getLast? hlast'
    obtain ⟨et, het⟩ := hI.links.valid t htL
    have hst5 : c5.mem.map cache_entry.payload =
        c.mem.map cache_entry.payload ++ [⟨k, ct, co, len⟩] := by
      rw [hF5.stored_eq]; exact hst2
    obtain ⟨et', het', hpay⟩ := payload_of_map_eq hst5 het
    have hpath : et'.path = et.path := congrArg Payload.path hpay
    refine ⟨{ c5 with index := hashtable_delete c5.index et'.path }, ?_, hst5, ?_, Or.inr
      ⟨hfull, t, et, hlast', het, ?_, ?_, ?_⟩⟩
    · have hev' : c2.cur_size + 1 > c2.max_size := by rw [hsz2', hmax2]; exact hev
      simp [cache_put, alloc_entry, hins, hev', hrem, load, het']
    · show c5.max_size = _
      rw [hF5.max_eq]; exact hmax2
    · have : (c.mem.length :: L).dropLast = c.mem.length :: L.dropLast := by
        cases L with
        | nil => exact absurd rfl hLne
        | cons x xs => rfl
      rw [← this]
      exact hL5.congr rfl rfl rfl
    · show c5.cur_size = _
      rw [hsz5]; show c2.cur_size + 1 - 1 = _
      rw [hsz2']; omega
    · show hashtable_delete c5.index et'.path = _
      rw [hF5.index_eq, hpath]
      show hashtable_delete (hashtable_put c2.index k c.mem.length) et.path = _
      rw [hidx2]
  · refine ⟨{ c2 with cur_size := c2.cur_size + 1,
                      index := hashtable_put c2.index k c.mem.length }, ?_, hst2, hmax2, Or.inl
      ⟨by omega, hL2.congr rfl rfl rfl, ?_, ?_⟩⟩
    · have hev' : ¬ c2.cur_size + 1 > c2.max_size := by rw [hsz2', hmax2]; exact hev
      simp [cache_put, alloc_entry, hins, hev']
    · show c2.cur_size + 1 = _
      rw [hsz2']
    · show hashtable_put c2.index k c.mem.length = _
      rw [hidx2]

theorem payload_at_eq (c : cache) (a : Nat) :
    payload_at c a = (c.mem.map cache_entry.payload)[a]? := by
  simp [payload_at, List.getElem?_map]

theorem path_at_eq (c : cache) (a : Nat) :
    path_at c a = (payload_at c a).map Payload.path := by
  unfold payload_at path_at
  cases c.mem[a]? <;> rfl

theorem payload_at_grow {c c' : cache} {ext : List Payload} {a : Nat}
    (h : c'.mem.map cache_entry.payload = c.mem.map cache_entry.payload ++ ext)
    (ha : a < c.mem.length) : payload_at c' a = payload_at c a := by
  rw [payload_at_eq, payload_at_eq, h, List.getElem?_append_left (by simpa using ha)]

theorem payload_at_new {c c' : cache} {pl : Payload}
    (h : c'.mem.map cache_entry.payload = c.mem.map cache_entry.payload ++ [pl]) :
    payload_at c' c.mem.length = some pl := by
  rw [payload_at_eq, h]
  simp

theorem path_at_grow {c c' : cache} {ext : List Payload} {a : Nat}
    (h : c'.mem.map cache_entry.payload = c.mem.map cache_entry.payload ++ ext)
    (ha : a < c.mem.length) : path_at c' a = path_at c a := by
  rw [path_at_eq, path_at_eq, payload_at_grow h ha]

theorem payload_at_frame {c c' : cache} (h : Frame c c') (a : Nat) :
    payload_at c' a = payload_at c a := by
  rw [payload_at_eq, payload_at_eq, h.stored_eq]

theorem path_at_frame {c c' : cache} (h : Frame c c') (a : Nat) :
    path_at c' a = path_at c a := by
  rw [path_at_eq, path_at_eq, payload_at_frame h]

theorem Links.lt {c : cache} {L : List Nat} (h : Links c L) {p : Nat} (hp : p ∈ L) :
    p < c.mem.length := by
  obtain ⟨e, he⟩ := h.valid p hp
  exact lt_of_getElem? he

theorem Links.path_some {c : cache} {L : List Nat} (h : Links c L) {p : Nat} (hp : p ∈ L) :
    ∃ k, path_at c p = some k := by
  obtain ⟨e, he⟩ := h.valid p hp
  exact ⟨e.path, by simp [path_at, he]⟩

theorem mem_keys {c : cache} {L : List Nat} (h : Links c L) (k : String) :
    k ∈ keys c ↔ ∃ p ∈ L, path_at c p = some k := by
  unfold keys
  rw [h.entries_eq, List.mem_filterMap]

theorem mem_dropLast_of_ne {L : List Nat} {t p : Nat} (hl : L.getLast? = some t)
    (hp : p ∈ L) (hne : p ≠ t) : p ∈ L.dropLast := by
  have h := List.dropLast_append_getLast? t hl
  rw [← h] at hp
  rcases List.mem_append.1 hp with h1 | h1
  · exact h1
  · simp at h1; exact absurd h1 hne

theorem not_mem_dropLast {L : List Nat} {t : Nat} (hl : L.getLast? = some t)
    (hnd : L.Nodup) : t ∉ L.dropLast := by
  have h := List.dropLast_append_getLast? t hl
  rw [← h, List.nodup_append] at hnd
  intro hx
  exact hnd.2.2 hx (by simp)

theorem length_dropLast_of_getLast {L : List Nat} {t : Nat} (hl : L.getLast? = some t) :
    (L.dropLast.length : Int) + 1 = L.length := by
  have h := List.dropLast_append_getLast? t hl
  have h2 := congrArg List.length h
  simp only [List.length_append, List.length_singleton] at h2
  omega

/-- What `cache_put` does to a well-formed state, in terms of the recency list. -/
theorem cache_put_inv {c : cache} {L : List Nat} (hI : Inv c L) (k ct : String)
    (co : List Nat) (len : Int) :
    ∃ c' L', cache_put c k ct co len = some c' ∧ Inv c' L' ∧
      L' = (if c.cur_size < c.max_size then c.mem.length :: L
            else c.mem.length :: L.dropLast) ∧
      c'.mem.map cache_entry.payload = c.mem.map cache_entry.payload ++ [⟨k, ct, co, len⟩] ∧
      c'.max_size = c.max_size ∧
      (path_at c c.mem.length = none) ∧
      ((∀ p ∈ L, path_at c p ≠ some k) → Complete c L → Complete c' L') := by
  obtain ⟨c', hput, hst, hmax, hcase⟩ := cache_put_spec hI k ct co len
  have hnewpath : path_at c' c.mem.length = some k := by
    rw [path_at_eq, payload_at_new hst]; rfl
  have hold : ∀ p ∈ L, path_at c' p = path_at c p := fun p hp =>
    path_at_grow hst (hI.links.lt hp)
  have hnone : path_at c c.mem.length = none := by simp [path_at]
  rcases hcase with ⟨hlt, hL', hsz, hidx⟩ | ⟨hfull, t, et, hlast, het, hL', hsz, hidx⟩
  · refine ⟨c', c.mem.length :: L, hput, ⟨hL', ?_, ?_, ?_, ?_⟩, by rw [if_pos hlt], hst, hmax,
      hnone, ?_⟩
    · rw [hsz, hI.size]; simp
    · rw [hsz, hmax]; omega
    · rw [hmax]; exact hI.cap
    · intro k' p hget
      rw [hidx, hashtable_get_put] at hget
      by_cases hk : k = k'
      · rw [if_pos hk] at hget
        cases hget
        exact ⟨by simp, hk ▸ hnewpath⟩
      · rw [if_neg hk] at hget
        obtain ⟨hp, hpath⟩ := hI.sound k' p hget
        exact ⟨List.mem_cons_of_mem _ hp, (hold p hp).trans hpath⟩
    · intro hfresh hC p hp k' hpath
      rw [hidx, hashtable_get_put]
      rcases List.mem_cons.1 hp with rfl | hpL
      · rw [hnewpath] at hpath
        cases hpath
        rw [if_pos rfl]
      · rw [hold p hpL] at hpath
        have hk : k ≠ k' := fun hx => hfresh p hpL (hx ▸ hpath)
        rw [if_neg hk]
        exact hC p hpL k' hpath
  · have htL : t ∈ L := List.mem_of_mem_getLast? hlast
    have htpath : path_at c t = some et.path := by simp [path_at, het]
    refine ⟨c', c.mem.length :: L.dropLast, hput, ⟨hL', ?_, ?_, ?_, ?_⟩,
      by rw [if_neg (by omega)], hst, hmax, hnone, ?_⟩
    · rw [hsz, hI.size]
      have := length_dropLast_of_getLast hlast
      simp only [List.length_cons, Nat.cast_add, Nat.cast_one]
      omega
    · rw [hsz, hmax]; exact hI.bound
    · rw [hmax]; exact hI.cap
    · intro k' p hget
      rw [hidx, hashtable_get_delete] at hget
      by_cases hkt : et.path = k'
      · rw [if_pos hkt] at hget; cases hget
      · rw [if_neg hkt, hashtable_get_put] at hget
        by_cases hk : k = k'
        · rw [if_pos hk] at hget
          cases hget
          exact ⟨by simp, hk ▸ hnewpath⟩
        · rw [if_neg hk] at hget
          obtain ⟨hp, hpath⟩ := hI.sound k' p hget
          have hpt : p ≠ t := by
            intro hx
            rw [hx, htpath] at hpath
            exact hkt (Option.some.inj hpath)
          exact ⟨List.mem_cons_of_mem _ (mem_dropLast_of_ne hlast hp hpt),
            (hold p hp).trans hpath⟩
    · intro hfresh hC p hp k' hpath
      rw [hidx, hashtable_get_delete, hashtable_get_put]
      have htk : et.path ≠ k := fun hx => hfresh t htL (hx ▸ htpath)
      rcases List.mem_cons.1 hp with rfl | hpD
      · rw [hnewpath] at hpath
        cases hpath
        rw [if_neg htk, if_pos rfl]
      · have hpL : p ∈ L := List.mem_of_mem_dropLast hpD
        rw [hold p hpL] at hpath
        have hpt : p ≠ t := fun hx => not_mem_dropLast hlast hI.links.nodup (hx ▸ hpD)
        have hkt : et.path ≠ k' := by
          intro hx
          have h1 := hC p hpL k' hpath
          have h2 := hC t htL k' (hx ▸ htpath)
          rw [h1] at h2
          exact hpt (Option.some.inj h2)
        have hk : k ≠ k' := fun hx => hfresh p hpL (hx ▸ hpath)
        rw [if_neg hkt, if_neg hk]
        exact hC p hpL k' hpath

theorem Frame.length {c c' : cache} (h : Frame c c') : c'.mem.length = c.mem.length := by
  have := congrArg List.length h.stored_eq
  simpa using this

theorem cache_get_miss {c : cache} {k : String} (h : hashtable_get c.index k = none) :
    cache_get c k = some (none, c) := by
  simp [cache_get, h]

/-- What `cache_get` does on a hit in a well-formed state. -/
theorem cache_get_hit {c : cache} {L : List Nat} {k : String} {p : Nat} (hI : Inv c L)
    (h : hashtable_get c.index k = some p) :
    ∃ c', cache_get c k = some (some p, c') ∧ Inv c' (p :: L.erase p) ∧ Frame c c' ∧
      c'.cur_size = c.cur_size ∧ (Complete c L → Complete c' (p :: L.erase p)) := by
  obtain ⟨hpL, hpath⟩ := hI.sound k p h
  obtain ⟨c', hmv, hL'⟩ := move_to_head_spec hI.links hpL
  obtain ⟨hF, hsz⟩ := move_to_head_frame hmv
  have hperm : L.Perm (p :: L.erase p) := List.perm_cons_erase hpL
  refine ⟨c', by simp [cache_get, h, hmv], ⟨hL', ?_, ?_, ?_, ?_⟩, hF, hsz, ?_⟩
  · rw [hsz, hI.size, hperm.length_eq]
  · rw [hsz, hF.max_eq]; exact hI.bound
  · rw [hF.max_eq]; exact hI.cap
  · intro k' q hq
    rw [hF.index_eq] at hq
    obtain ⟨hqL, hqp⟩ := hI.sound k' q hq
    exact ⟨hperm.mem_iff.1 hqL, (path_at_frame hF q).trans hqp⟩
  · intro hC q hq k' hqp
    rw [hF.index_eq]
    rw [path_at_frame hF q] at hqp
    exact hC q (hperm.mem_iff.2 hq) k' hqp

theorem create_inv (max_size hashsize : Int) {c0 : cache}
    (h0 : cache_create max_size hashsize = some c0) (hmax : 1 ≤ max_size) :
    Inv c0 [] ∧ Complete c0 [] ∧ c0.max_size = max_size ∧ c0.mem = [] := by
  simp only [cache_create, Option.some.injEq] at h0
  subst h0
  refine ⟨⟨⟨List.nodup_nil, trivial, rfl, rfl⟩, rfl, ?_, hmax, ?_⟩, ?_, rfl, rfl⟩
  · show (0 : Int) ≤ max_size
    omega
  · intro k p h
    simp [hashtable_create, hashtable_get] at h
  · intro p hp
    cases hp

/-- Every call returns in a well-formed state and leaves it well-formed. -/
theorem step_inv {c : cache} {L : List Nat} (hI : Inv c L) (op : Op) :
    ∃ c' L', step c op = some c' ∧ Inv c' L' ∧ c'.max_size = c.max_size ∧
      (fresh c op = true → Complete c L → Complete c' L') := by
  cases op with
  | put k ct co len =>
    obtain ⟨c', L', hput, hI', _, _, hmax, _, hC⟩ := cache_put_inv hI k ct co len
    refine ⟨c', L', hput, hI', hmax, ?_⟩
    intro hf
    apply hC
    intro p hp hpk
    simp only [fresh, decide_eq_true_eq] at hf
    exact hf ((mem_keys hI.links k).2 ⟨p, hp, hpk⟩)
  | get k =>
    cases hget : hashtable_get c.index k with
    | none =>
      exact ⟨c, L, by simp [step, cache_get_miss hget], hI, rfl, fun _ h => h⟩
    | some p =>
      obtain ⟨c', hg, hI', hF, _, hC⟩ := cache_get_hit hI hget
      exact ⟨c', _, by simp [step, hg], hI', hF.max_eq, fun _ => hC⟩

theorem run_inv {c : cache} {L : List Nat} (hI : Inv c L) (ops : List Op) :
    ∃ c' L', run c ops = some c' ∧ Inv c' L' ∧ c'.max_size = c.max_size := by
  induction ops generalizing c L with
  | nil => exact ⟨c, L, rfl, hI, rfl⟩
  | cons op ops ih =>
    obtain ⟨c1, L1, hs, hI1, hm1, _⟩ := step_inv hI op
    obtain ⟨c2, L2, hr, hI2, hm2⟩ := ih hI1
    exact ⟨c2, L2, by simp [run, hs, hr], hI2, hm2.trans hm1⟩

theorem run_inv_fresh {c : cache} {L : List Nat} (hI : Inv c L) (hC : Complete c L)
    (ops : List Op) (hf : fresh_puts c ops = true) :
    ∃ c' L', run c ops = some c' ∧ Inv c' L' ∧ Complete c' L' ∧ c'.max_size = c.max_size := by
  induction ops generalizing c L with
  | nil => exact ⟨c, L, rfl, hI, hC, rfl⟩
  | cons op ops ih =>
    obtain ⟨c1, L1, hs, hI1, hm1, hC1⟩ := step_inv hI op
    simp only [fresh_puts, hs, Bool.and_eq_true] at hf
    obtain ⟨c2, L2, hr, hI2, hC2, hm2⟩ := ih hI1 (hC1 hf.1 hC) hf.2
    exact ⟨c2, L2, by simp [run, hs, hr], hI2, hC2, hm2.trans hm1⟩

theorem nodup_filterMap_on {L : List Nat} {f : Nat → Option String} (hnd : L.Nodup)
    (hinj : ∀ p ∈ L, ∀ q ∈ L, ∀ k, f p = some k → f q = some k → p = q) :
    (L.filterMap f).Nodup := by
  induction L with
  | nil => simp
  | cons x xs ih =>
    have hxs : (xs.filterMap f).Nodup :=
      ih (List.nodup_cons.1 hnd).2 (fun p hp q hq k h1 h2 =>
        hinj p (List.mem_cons_of_mem _ hp) q (List.mem_cons_of_mem _ hq) k h1 h2)
    cases hfx : f x with
    | none => rw [List.filterMap_cons_none hfx]; exact hxs
    | some k =>
      rw [List.filterMap_cons_some hfx]
      refine List.nodup_cons.2 ⟨?_, hxs⟩
      intro hk
      obtain ⟨q, hq, hfq⟩ := List.mem_filterMap.1 hk
      have := hinj x (by simp) q (List.mem_cons_of_mem _ hq) k hfx hfq
      exact (List.nodup_cons.1 hnd).1 (this ▸ hq)

theorem Complete.keys_nodup {c : cache} {L : List Nat} (hL : Links c L) (hC : Complete c L) :
    (keys c).Nodup := by
  unfold keys
  rw [hL.entries_eq]
  apply nodup_filterMap_on hL.nodup
  intro p hp q hq k h1 h2
  have e1 := hC p hp k h1
  have e2 := hC q hq k h2
  rw [e1] at e2
  exact Option.some.inj e2

theorem Links.keys_length {c : cache} {L : List Nat} (hL : Links c L) :
    (keys c).length = L.length := by
  unfold keys
  rw [hL.entries_eq]
  have h : ∀ M : List Nat, (∀ p ∈ M, ∃ k, path_at c p = some k) →
      (M.filterMap (path_at c)).length = M.length := by
    intro M
    induction M with
    | nil => intro _; rfl
    | cons x xs ih =>
      intro hM
      obtain ⟨k, hk⟩ := hM x (by simp)
      rw [List.filterMap_cons_some hk]
      simp [ih (fun p hp => hM p (List.mem_cons_of_mem _ hp))]
  exact h L (fun p hp => hL.path_some hp)


theorem step_stored {c c' : cache} {L : List Nat} (hI : Inv c L) {op : Op}
    (hs : step c op = some c') : stored c' = stored c ++ op.stores := by
  cases op with
  | put k ct co len =>
    obtain ⟨c1, L', hput, _, _, hst, _⟩ := cache_put_inv hI k ct co len
    simp only [step] at hs
    rw [hput] at hs
    cases hs
    exact hst
  | get k =>
    cases hget : hashtable_get c.index k with
    | none =>
      simp only [step, cache_get_miss hget, Option.map_some', Option.some.injEq] at hs
      subst hs
      simp [Op.stores]
    | some p =>
      obtain ⟨c1, hg, _, hF, _⟩ := cache_get_hit hI hget
      simp only [step, hg, Option.map_some', Option.some.injEq] at hs
      subst hs
      simpa [Op.stores, stored] using hF.stored_eq

/-- The heap payloads are an append-only log of the arguments of the puts. -/
theorem run_stored {c c' : cache} {L : List Nat} (hI : Inv c L) {ops : List Op}
    (hr : run c ops = some c') :
    ∃ L', Inv c' L' ∧ stored c' = stored c ++ put_payloads ops := by
  induction ops generalizing c L with
  | nil =>
    simp only [run, Option.some.injEq] at hr
    subst hr
    exact ⟨L, hI, by simp [put_payloads]⟩
  | cons op ops ih =>
    obtain ⟨c1, L1, hs, hI1, _, _⟩ := step_inv hI op
    simp only [run, hs, Option.some_bind] at hr
    obtain ⟨L', hI', hst⟩ := ih hI1 hr
    refine ⟨L', hI', ?_⟩
    rw [hst, step_stored hI hs, put_payloads, List.append_assoc]

theorem Links.head_entries {c : cache} {L : List Nat} (h : Links c L) :
    c.head = (entries c).head? := by
  rw [h.entries_eq, h.head_eq]

theorem last_use_snoc (ops : List Op) (op : Op) (k : String) :
    last_use (ops ++ [op]) k = if op.key = k then ops.length + 1 else last_use ops k := by
  unfold last_use
  rw [List.reverse_append, List.reverse_singleton, List.singleton_append, List.map_cons]
  by_cases h : op.key = k
  · rw [if_pos h, List.indexOf_cons_eq _ h]
    simp
  · rw [if_neg h, List.indexOf_cons_ne _ h]
    simp only [List.length_append, List.length_singleton]
    omega

theorem last_use_le (ops : List Op) (k : String) : last_use ops k ≤ ops.length := by
  unfold last_use
  omega

theorem run_append (c : cache) (xs ys : List Op) :
    run c (xs ++ ys) = (run c xs).bind (fun c' => run c' ys) := by
  induction xs generalizing c with
  | nil => rfl
  | cons x xs ih =>
    simp only [List.cons_append, run]
    cases step c x with
    | none => rfl
    | some c1 => simp [ih]

theorem fresh_puts_append {c c' : cache} {xs ys : List Op}
    (hf : fresh_puts c (xs ++ ys) = true) (hr : run c xs = some c') :
    fresh_puts c xs = true ∧ fresh_puts c' ys = true := by
  induction xs generalizing c with
  | nil =>
    simp only [run, Option.some.injEq] at hr
    subst hr
    exact ⟨rfl, hf⟩
  | cons x xs ih =>
    simp only [List.cons_append, fresh_puts, Bool.and_eq_true] at hf ⊢
    simp only [run] at hr
    cases hs : step c x with
    | none => rw [hs] at hr; cases hr
    | some c1 =>
      rw [hs] at hr hf
      simp only [Option.some_bind] at hr
      obtain ⟨h1, h2⟩ := ih hf.2 hr
      exact ⟨⟨hf.1, h1⟩, h2⟩

theorem Links.keys_eq {c : cache} {L : List Nat} (h : Links c L) :
    keys c = L.filterMap (path_at c) := by
  unfold keys
  rw [h.entries_eq]

theorem filterMap_path_congr {c c' : cache} {M : List Nat}
    (h : ∀ p ∈ M, path_at c' p = path_at c p) :
    M.filterMap (path_at c') = M.filterMap (path_at c) := by
  induction M with
  | nil => rfl
  | cons x xs ih =>
    have hx := h x (by simp)
    have hxs := ih (fun p hp => h p (List.mem_cons_of_mem _ hp))
    simp only [List.filterMap_cons, hx, hxs]

/-- How one call changes the list of keys: the key of a put or of a successful get moves
to the front, the keys behind it keep their order, and at most the last one is dropped. -/
theorem step_keys {c : cache} {L : List Nat} (hI : Inv c L) (hC : Complete c L) (op : Op)
    (hf : fresh c op = true) :
    ∃ c' L' rest, step c op = some c' ∧ Inv c' L' ∧ Complete c' L' ∧
      rest.Sublist (keys c) ∧ op.key ∉ rest ∧ (keys c' = op.key :: rest ∨ keys c' = rest) := by
  cases op with
  | put k ct co len =>
    simp only [fresh, decide_eq_true_eq] at hf
    have hfresh : ∀ p ∈ L, path_at c p ≠ some k := fun p hp hpk =>
      hf ((mem_keys hI.links k).2 ⟨p, hp, hpk⟩)
    obtain ⟨c', L', hput, hI', hL', hst, _, _, hC'⟩ := cache_put_inv hI k ct co len
    have hnewpath : path_at c' c.mem.length = some k := by
      rw [path_at_eq, payload_at_new hst]; rfl
    have hold : ∀ M : List Nat, M.Sublist L →
        M.filterMap (path_at c') = M.filterMap (path_at c) := fun M hM =>
      filterMap_path_congr (fun p hp => path_at_grow hst (hI.links.lt (hM.subset hp)))
    have hkeys : ∀ M : List Nat, M.Sublist L → L' = c.mem.length :: M →
        keys c' = k :: M.filterMap (path_at c) := by
      intro M hM hL'M
      rw [hI'.links.keys_eq, hL'M, List.filterMap_cons_some hnewpath, hold M hM]
    have hsub : ∀ M : List Nat, M.Sublist L → (M.filterMap (path_at c)).Sublist (keys c) := by
      intro M hM
      rw [hI.links.keys_eq]
      exact hM.filterMap _
    have hnot : ∀ M : List Nat, M.Sublist L → k ∉ M.filterMap (path_at c) := fun M hM hk =>
      hf ((hsub M hM).subset hk)
    by_cases hlt : c.cur_size < c.max_size
    · rw [if_pos hlt] at hL'
      exact ⟨c', L', _, hput, hI', hC' hfresh hC, hsub L (List.Sublist.refl L),
        hnot L (List.Sublist.refl L), Or.inl (hkeys L (List.Sublist.refl L) hL')⟩
    · rw [if_neg hlt] at hL'
      exact ⟨c', L', _, hput, hI', hC' hfresh hC, hsub _ (List.dropLast_sublist L),
        hnot _ (List.dropLast_sublist L), Or.inl (hkeys _ (List.dropLast_sublist L) hL')⟩
  | get k =>
    cases hget : hashtable_get c.index k with
    | none =>
      refine ⟨c, L, keys c, by simp [step, cache_get_miss hget], hI, hC,
        List.Sublist.refl _, ?_, Or.inr rfl⟩
      intro hk
      obtain ⟨p, hp, hpk⟩ := (mem_keys hI.links k).1 hk
      rw [hC p hp k hpk] at hget
      cases hget
    | some p =>
      obtain ⟨c', hg, hI', hF, _, hC'⟩ := cache_get_hit hI hget
      obtain ⟨hpL, hpk⟩ := hI.sound k p hget
      refine ⟨c', _, (L.erase p).filterMap (path_at c), by simp [step, hg], hI', hC' hC,
        ?_, ?_, Or.inl ?_⟩
      · rw [hI.links.keys_eq]
        exact (List.erase_sublist p L).filterMap _
      · intro hk
        obtain ⟨q, hq, hqk⟩ := List.mem_filterMap.1 hk
        have hqL : q ∈ L := List.mem_of_mem_erase hq
        have := hC q hqL k hqk
        rw [hget] at this
        have hqp : p = q := Option.some.inj this
        subst hqp
        exact ((List.Nodup.mem_erase_iff hI.links.nodup).1 hq).1 rfl
      · rw [hI'.links.keys_eq]
        have hpk' : path_at c' p = some k := (path_at_frame hF p).trans hpk
        rw [List.filterMap_cons_some hpk']
        exact congrArg _ (filterMap_path_congr (fun q _ => path_at_frame hF q))

/-- The recency list is ordered by last use: of two keys on the list, the one nearer to the
head was put or got later. -/
theorem run_recency {c0 : cache} (hI0 : Inv c0 []) (ops : List Op)
    (hf : fresh_puts c0 ops = true) :
    ∃ c L, run c0 ops = some c ∧ Inv c L ∧ Complete c L ∧
      (keys c).Pairwise (fun a b => last_use ops b < last_use ops a) := by
  induction ops using List.reverseRecOn with
  | nil =>
    have hC0 : Complete c0 [] := fun p hp => by cases hp
    refine ⟨c0, [], rfl, hI0, hC0, ?_⟩
    rw [hI0.links.keys_eq]
    exact List.Pairwise.nil
  | append_singleton ops op ih =>
    have hC0 : Complete c0 [] := fun p hp => by cases hp
    obtain ⟨c1, L1, hr1, _, _, _⟩ := run_inv_fresh hI0 hC0 (ops ++ [op]) hf
    have hr1' := hr1
    rw [run_append] at hr1'
    cases hr : run c0 ops with
    | none => rw [hr] at hr1'; cases hr1'
    | some c =>
      obtain ⟨hfo, hfop⟩ := fresh_puts_append hf hr
      obtain ⟨c', L, hr', hI, hC, hpw⟩ := ih hfo
      rw [hr] at hr'
      cases hr'
      have hfop' : fresh c op = true := by
        simp only [fresh_puts, Bool.and_eq_true] at hfop
        exact hfop.1
      obtain ⟨c2, L2, rest, hs, hI2, hC2, hsub, hnot, hk⟩ := step_keys hI hC op hfop'
      refine ⟨c2, L2, by rw [run_append, hr]; simp [run, hs], hI2, hC2, ?_⟩
      have hrest : rest.Pairwise (fun a b => last_use (ops ++ [op]) b < last_use (ops ++ [op]) a) := by
        refine List.Pairwise.imp_of_mem ?_ (hpw.sublist hsub)
        intro a b ha hb hab
        have hak : op.key ≠ a := fun hx => hnot (hx ▸ ha)
        have hbk : op.key ≠ b := fun hx => hnot (hx ▸ hb)
        rw [last_use_snoc, last_use_snoc, if_neg hak, if_neg hbk]
        exact hab
      rcases hk with hk | hk
      · rw [hk]
        refine List.pairwise_cons.2 ⟨?_, hrest⟩
        intro b hb
        have hbk : op.key ≠ b := fun hx => hnot (hx ▸ hb)
        rw [last_use_snoc, last_use_snoc, if_neg hbk, if_pos rfl]
        have := last_use_le ops b
        omega
      · rw [hk]; exact hrest

/-- The steps of `cache_put` when the new entry makes the cache exceed its capacity. -/
theorem cache_put_evict_steps {c : cache} {L : List Nat} (hI : Inv c L) (k ct : String)
    (co : List Nat) (len : Int) :
    ∃ c2, dllist_insert_head (alloc_entry c k ct co len).2 (alloc_entry c k ct co len).1
        = some c2 ∧
      c2.cur_size = c.cur_size ∧ c2.max_size = c.max_size ∧
      (c2.cur_size + 1 > c2.max_size →
        ∃ t c5 e,
          dllist_remove_tail { c2 with cur_size := c2.cur_size + 1, index := hashtable_put c2.index k (alloc_entry c k ct co len).1 } = some (t, c5) ∧
          load c5.mem (some t) = some e ∧
          cache_put c k ct co len = some { c5 with index := hashtable_delete c5.index e.path } ∧
          L.getLast? = some t ∧ path_at c t = some e.path) := by
  have hnew : c.mem.length ∉ L := fun hx => absurd (hI.links.lt hx) (lt_irrefl _)
  have hL1 : Links (alloc_entry c k ct co len).2 L :=
    ⟨hI.links.nodup, seg_grow _ hI.links.chain, hI.links.head_eq, hI.links.tail_eq⟩
  have hcell : (alloc_entry c k ct co len).2.mem[(alloc_entry c k ct co len).1]? =
      some (cache_entry.mk k ct co len none none) := List.getElem?_concat_length _ _
  obtain ⟨c2, hins0, hL2⟩ := insert_head_spec hL1 hnew hcell
  have hins : dllist_insert_head (alloc_entry c k ct co len).2 (alloc_entry c k ct co len).1
      = some c2 := hins0
  obtain ⟨hF2, hsz2⟩ := insert_head_frame hins
  have hst2 : c2.mem.map cache_entry.payload =
      c.mem.map cache_entry.payload ++ [⟨k, ct, co, len⟩] := by
    rw [hF2.stored_eq]; simp [alloc_entry, cache_entry.payload]
  refine ⟨c2, hins, hsz2, hF2.max_eq, ?_⟩
  intro hev
  have hsz2' : c2.cur_size = c.cur_size := hsz2
  have hmax2 : c2.max_size = c.max_size := hF2.max_eq
  have hlen : 2 ≤ (c.mem.length :: L).length := by
    have h1 := hI.size
    have h2 := hI.cap
    simp only [List.length_cons]
    omega
  have hL4 : Links { c2 with cur_size := c2.cur_size + 1, index := hashtable_put c2.index k (alloc_entry c k ct co len).1 } (c.mem.length :: L) :=
    hL2.congr rfl rfl rfl
  obtain ⟨t, c5, hrem, hlast, _⟩ := remove_tail_spec hL4 hlen
  obtain ⟨hF5, _, _⟩ := remove_tail_frame hrem
  have hlast' : L.getLast? = some t := by
    cases L with
    | nil => simp at hlen
    | cons x xs => simpa using hlast
  obtain ⟨et, het⟩ := hI.links.valid t (List.mem_of_mem_getLast? hlast')
  have hst5 : c5.mem.map cache_entry.payload =
      c.mem.map cache_entry.payload ++ [⟨k, ct, co, len⟩] := by
    rw [hF5.stored_eq]; exact hst2
  obtain ⟨et', het', hpay⟩ := payload_of_map_eq hst5 het
  have hpath : et'.path = et.path := congrArg Payload.path hpay
  have hload : load c5.mem (some t) = some et' := het'
  refine ⟨t, c5, et', hrem, hload, ?_, hlast', ?_⟩
  · unfold cache_put
    simp only [Option.bind_eq_bind, hins, Option.some_bind]
    rw [if_pos hev]
    simp only [hrem, Option.some_bind, hload]
  · simp [path_at, het, hpath]

theorem mem_descending {n i : Nat} : i ∈ descending n ↔ i < n := by
  induction n with
  | zero => simp [descending]
  | succ n ih =>
    simp only [descending, List.mem_cons, ih]
    omega

theorem length_descending (n : Nat) : (descending n).length = n := by
  induction n with
  | zero => rfl
  | succ n ih => simp [descending, ih]

theorem getLast?_descending (n : Nat) : (descending (n + 1)).getLast? = some 0 := by
  induction n with
  | zero => rfl
  | succ n ih =>
    show (((n + 1) :: descending (n + 1)) : List Nat).getLast? = some 0
    rw [show descending (n + 1) = n :: descending n from rfl, List.getLast?_cons_cons]
    exact ih

theorem payload_at_stored (c : cache) (a : Nat) : payload_at c a = (stored c)[a]? :=
  payload_at_eq c a

theorem stored_length (c : cache) : (stored c).length = c.mem.length := by
  simp [stored]

theorem paths_inj {pls : List Payload} (hnd : (pls.map Payload.path).Nodup) {i j : Nat}
    {a b : Payload} (hi : pls[i]? = some a) (hj : pls[j]? = some b) (hab : a.path = b.path) :
    i = j := by
  have h1 : (pls.map Payload.path)[i]? = some a.path := by rw [List.getElem?_map, hi]; rfl
  have h2 : (pls.map Payload.path)[j]? = some a.path := by
    rw [List.getElem?_map, hj, hab]; rfl
  have hlt : i < (pls.map Payload.path).length := (List.getElem?_eq_some.1 h1).1
  exact List.getElem?_inj hlt hnd (h1.trans h2.symm)

/-- Putting `m <= max_size` payloads with distinct keys into an empty cache: each goes to
the cell with its number and to the front of the list; nothing is evicted. -/
theorem run_puts_room {c0 : cache} (hI0 : Inv c0 []) (hmem : c0.mem = [])
    (pls : List Payload) (hlen : (pls.length : Int) ≤ c0.max_size)
    (hnd : (pls.map Payload.path).Nodup) :
    ∃ c, run c0 (pls.map Payload.as_put) = some c ∧ Inv c (descending pls.length) ∧
      Complete c (descending pls.length) ∧ stored c = pls ∧ c.max_size = c0.max_size := by
  induction pls using List.reverseRecOn with
  | nil =>
    have hC0 : Complete c0 [] := fun p hp => by cases hp
    refine ⟨c0, rfl, hI0, hC0, ?_, rfl⟩
    simp [stored, hmem]
  | append_singleton pls pl ih =>
    have hlen' : (pls.length : Int) + 1 ≤ c0.max_size := by
      simpa using hlen
    have hnd' : (pls.map Payload.path).Nodup ∧ pl.path ∉ pls.map Payload.path := by
      rw [List.map_append, List.nodup_append] at hnd
      exact ⟨hnd.1, fun hx => hnd.2.2 hx (by simp)⟩
    obtain ⟨c, hr, hI, hC, hst, hm⟩ := ih (by omega) hnd'.1
    have hmemlen : c.mem.length = pls.length := by rw [← stored_length, hst]
    obtain ⟨c', L', hput, hI', hL', hst', hm', _, hC'⟩ :=
      cache_put_inv hI pl.path pl.content_type pl.content pl.content_length
    have hlt : c.cur_size < c.max_size := by
      rw [hI.size, hm]
      rw [length_descending]
      omega
    rw [if_pos hlt, hmemlen] at hL'
    have hfresh : ∀ p ∈ descending pls.length, path_at c p ≠ some pl.path := by
      intro p _ hpk
      rw [path_at_eq, payload_at_stored, hst] at hpk
      cases hq : pls[p]? with
      | none => rw [hq] at hpk; cases hpk
      | some q =>
        rw [hq] at hpk
        have hqp : q.path = pl.path := by simpa using hpk
        exact hnd'.2 (hqp ▸ List.mem_map_of_mem _ (List.getElem?_mem hq))
    have hL'' : L' = descending (pls ++ [pl]).length := by
      rw [hL', List.length_append, List.length_singleton]; rfl
    refine ⟨c', ?_, hL'' ▸ hI', hL'' ▸ hC' hfresh hC, ?_, hm'.trans hm⟩
    · rw [List.map_append, run_append, hr]
      simp [run, step, Payload.as_put, hput]
    · show c'.mem.map _ = _
      rw [hst']
      show stored c ++ _ = _
      rw [hst]

/-- Gets only reorder the list: they return, and keep the index, the payloads, the size and
the set of list entries. -/
theorem run_gets {c : cache} {L : List Nat} (hI : Inv c L) (gs : List String) :
    ∃ c' L', run c (gs.map Op.get) = some c' ∧ Inv c' L' ∧ (Complete c L → Complete c' L') ∧
      (∀ p, p ∈ L' ↔ p ∈ L) ∧ c'.index = c.index ∧ stored c' = stored c ∧
      c'.cur_size = c.cur_size := by
  induction gs generalizing c L with
  | nil => exact ⟨c, L, rfl, hI, fun h => h, fun _ => Iff.rfl, rfl, rfl, rfl⟩
  | cons g gs ih =>
    cases hget : hashtable_get c.index g with
    | none =>
      obtain ⟨c', L', hr, hI', hC', hmem, hidx, hst, hsz⟩ := ih hI
      refine ⟨c', L', ?_, hI', hC', hmem, hidx, hst, hsz⟩
      simp [run, step, cache_get_miss hget, hr]
    | some p =>
      obtain ⟨c1, hg, hI1, hF, hsz1, hC1⟩ := cache_get_hit hI hget
      obtain ⟨hpL, _⟩ := hI.sound g p hget
      obtain ⟨c', L', hr, hI', hC', hmem, hidx, hst, hsz⟩ := ih hI1
      refine ⟨c', L', ?_, hI', fun h => hC' (hC1 h), ?_, hidx.trans hF.index_eq,
        hst.trans hF.stored_eq, hsz.trans hsz1⟩
      · simp [run, step, hg, hr]
      · intro q
        rw [hmem q]
        exact (List.perm_cons_erase hpL).mem_iff.symm

theorem keys_subset_stored {c : cache} {L : List Nat} (hL : Links c L) {k : String}
    (hk : k ∈ keys c) : k ∈ (stored c).map Payload.path := by
  obtain ⟨p, _, hp⟩ := (mem_keys hL k).1 hk
  rw [path_at_eq, payload_at_stored] at hp
  cases hq : (stored c)[p]? with
  | none => rw [hq] at hp; cases hp
  | some q =>
    rw [hq] at hp
    have hqk : q.path = k := by simpa using hp
    exact hqk ▸ List.mem_map_of_mem _ (List.getElem?_mem hq)

/-- A sequence whose puts all use different keys, none of them stored before, never puts a
key that is already in the cache. -/
theorem fresh_puts_of_distinct {c : cache} {L : List Nat} (hI : Inv c L) (ops : List Op)
    (hnd : ((put_payloads ops).map Payload.path).Nodup)
    (hnew : ∀ k ∈ (stored c).map Payload.path, k ∉ (put_payloads ops).map Payload.path) :
    fresh_puts c ops = true := by
  induction ops generalizing c L with
  | nil => rfl
  | cons op ops ih =>
    obtain ⟨c1, L1, hs, hI1, _, _⟩ := step_inv hI op
    have hst := step_stored hI hs
    simp only [fresh_puts, hs, Bool.and_eq_true]
    simp only [put_payloads, List.map_append, List.nodup_append] at hnd
    refine ⟨?_, ih hI1 hnd.2.1 ?_⟩
    · cases op with
      | get k => rfl
      | put k ct co len =>
        simp only [fresh, decide_eq_true_eq]
        intro hk
        exact hnew k (keys_subset_stored hI.links hk) (by simp [put_payloads, Op.stores])
    · intro k hk hk'
      rw [hst, List.map_append, List.mem_append] at hk
      rcases hk with hk | hk
      · exact hnew k hk (by simp only [put_payloads, List.map_append, List.mem_append]; exact Or.inr hk')
      · exact hnd.2.2 hk hk'

theorem seg_adjacent {mem : List cache_entry} {pv nx : Option Nat} {L : List Nat}
    (h : seg mem pv L nx) (i x y : Nat) (hx : L[i]? = some x) (hy : L[i + 1]? = some y) :
    (mem[x]?).map (fun e => e.next) = some (some y) ∧
      (mem[y]?).map (fun e => e.prev) = some (some x) := by
  induction L generalizing pv i with
  | nil => simp at hx
  | cons a as ih =>
    obtain ⟨e, he, _, hn, hrest⟩ := h
    cases i with
    | zero =>
      simp only [List.getElem?_cons_zero, Option.some.injEq] at hx
      subst hx
      cases as with
      | nil => simp at hy
      | cons b bs =>
        simp only [zero_add, List.getElem?_cons_succ, List.getElem?_cons_zero,
          Option.some.injEq] at hy
        subst hy
        obtain ⟨eb, heb, hpb, _, _⟩ := hrest
        refine ⟨?_, ?_⟩
        · rw [he]; simp [hn, headOr]
        · rw [heb]; simp [hpb]
    | succ j =>
      simp only [List.getElem?_cons_succ] at hx hy
      exact ih hrest j hx hy

theorem seg_first_prev {mem : List cache_entry} {pv nx : Option Nat} {L : List Nat}
    (h : seg mem pv L nx) (x : Nat) (hx : L.head? = some x) :
    (mem[x]?).map (fun e => e.prev) = some pv := by
  cases L with
  | nil => simp at hx
  | cons a as =>
    obtain ⟨e, he, hp, _, _⟩ := h
    simp only [List.head?_cons, Option.some.injEq] at hx
    subst hx
    rw [he]; simp [hp]

theorem seg_last_next {mem : List cache_entry} {pv nx : Option Nat} {L : List Nat}
    (h : seg mem pv L nx) (x : Nat) (hx : L.getLast? = some x) :
    (mem[x]?).map (fun e => e.next) = some nx := by
  obtain ⟨A, rfl⟩ := List.getLast?_eq_some_iff.1 hx
  rw [seg_append] at h
  obtain ⟨_, e, he, _, hn, _⟩ := h
  rw [he]; simp [hn, headOr]

theorem walk_back_seg {mem : List cache_entry} {nx : Option Nat} {L : List Nat}
    (h : seg mem none L nx) (fuel : Nat) (hf : L.length ≤ fuel) :
    walk_back mem fuel L.getLast? = L.reverse := by
  induction L using List.reverseRecOn generalizing nx fuel with
  | nil => cases fuel <;> rfl
  | append_singleton A a ih =>
    rw [seg_append] at h
    obtain ⟨hA, e, he, hp, _, _⟩ := h
    cases fuel with
    | zero => simp at hf
    | succ f =>
      have hf' : A.length ≤ f := by simpa using hf
      rw [List.getLast?_concat, List.reverse_append, List.reverse_singleton,
        List.singleton_append]
      simp only [walk_back, he]
      rw [hp, lastOr_none, ih hA f hf']

/-- The abstract description of the list gives every pointer fact of `WellLinked`. -/
theorem Links.well_linked {c : cache} {L : List Nat} (h : Links c L) : WellLinked c := by
  have hE := h.entries_eq
  refine ⟨?_, ?_, ?_, ?_, ?_, ?_, ?_⟩
  · intro x hx
    exact seg_first_prev h.chain x (h.head_eq ▸ hx)
  · intro x hx
    exact seg_last_next h.chain x (h.tail_eq ▸ hx)
  · intro i x y hx hy
    rw [hE] at hx hy
    exact seg_adjacent h.chain i x y hx hy
  · rw [hE]; exact h.head_eq
  · rw [hE]; exact h.tail_eq
  · unfold entries_back
    rw [hE, h.tail_eq]
    exact walk_back_seg h.chain _ h.length_le
  · rw [hE]; exact h.nodup

theorem remove_tail_some {c c' : cache} {t : Nat} (h : dllist_remove_tail c = some (t, c')) :
    ∃ e a ea, c.tail = some t ∧ load c.mem (some t) = some e ∧ e.prev = some a ∧
      load c.mem (some a) = some ea := by
  unfold dllist_remove_tail at h
  simp only [Option.bind_eq_bind, Option.bind_eq_some] at h
  obtain ⟨t', ht, e, he, m, hm, h⟩ := h
  simp only [Option.some.injEq, Prod.mk.injEq] at h
  obtain ⟨rfl, _⟩ := h
  cases hp : e.prev with
  | none => rw [hp] at hm; simp [store] at hm
  | some a =>
    rw [hp] at hm
    cases ha : c.mem[a]? with
    | none => simp [store, ha] at hm
    | some ea => exact ⟨e, a, ea, ht, he, hp, ha⟩

theorem two_entry_cache_inv : Inv two_entry_cache [1, 0] :=
  { links := ⟨by decide, ⟨_, rfl, rfl, rfl, _, rfl, rfl, rfl, trivial⟩, rfl, rfl⟩,
    size := rfl, bound := by decide, cap := by decide,
    sound := by
      intro k p h
      simp only [two_entry_cache, hashtable_get] at h
      split at h
      · cases h; subst_vars; exact ⟨by decide, rfl⟩
      · split at h
        · cases h; subst_vars; exact ⟨by decide, rfl⟩
        · cases h }

/-- An entry that no key maps to stays unmapped: puts only map keys to the cell they
allocate, and deletions only remove mappings. -/
theorem step_unindexed {c c' : cache} {L : List Nat} (hI : Inv c L) {p : Nat}
    (hp : p < c.mem.length) (hu : ∀ k, hashtable_get c.index k ≠ some p) {op : Op}
    (hs : step c op = some c') :
    (∀ k, hashtable_get c'.index k ≠ some p) ∧ p < c'.mem.length := by
  have hlen : p < c'.mem.length := by
    have h1 := congrArg List.length (step_stored hI hs)
    rw [List.length_append, stored_length, stored_length] at h1
    omega
  refine ⟨?_, hlen⟩
  cases op with
  | put k ct co len =>
    obtain ⟨c1, hput, _, _, hcase⟩ := cache_put_spec hI k ct co len
    simp only [step] at hs
    rw [hput] at hs
    cases hs
    have hput_ne : ∀ k', hashtable_get (hashtable_put c.index k c.mem.length) k' ≠ some p := by
      intro k'
      rw [hashtable_get_put]
      split
      · intro hx
        have := Option.some.inj hx
        omega
      · exact hu k'
    rcases hcase with ⟨_, _, _, hidx⟩ | ⟨_, t, et, _, _, _, _, hidx⟩
    · intro k'
      rw [hidx]
      exact hput_ne k'
    · intro k'
      rw [hidx, hashtable_get_delete]
      split
      · simp
      · exact hput_ne k'
  | get k =>
    cases hget : hashtable_get c.index k with
    | none =>
      simp only [step, cache_get_miss hget, Option.map_some', Option.some.injEq] at hs
      subst hs
      exact hu
    | some q =>
      obtain ⟨c1, hg, _, hF, _, _⟩ := cache_get_hit hI hget
      simp only [step, hg, Option.map_some', Option.some.injEq] at hs
      subst hs
      intro k'
      rw [hF.index_eq]
      exact hu k'

theorem run_unindexed {c c' : cache} {L : List Nat} (hI : Inv c L) {p : Nat}
    (hp : p < c.mem.length) (hu : ∀ k, hashtable_get c.index k ≠ some p) {ops : List Op}
    (hr : run c ops = some c') :
    ∃ L', Inv c' L' ∧ (∀ k, hashtable_get c'.index k ≠ some p) ∧ p < c'.mem.length := by
  induction ops generalizing c L with
  | nil =>
    simp only [run, Option.some.injEq] at hr
    subst hr
    exact ⟨L, hI, hu, hp⟩
  | cons op ops ih =>
    obtain ⟨c1, L1, hs, hI1, _, _⟩ := step_inv hI op
    simp only [run, hs, Option.some_bind] at hr
    obtain ⟨hu1, hp1⟩ := step_unindexed hI hp hu hs
    exact ih hI1 hp1 hu1 hr

/-! ## The claims

In C1, C2, C5 and C18 the calls "with distinct keys" are the sequences accepted by `fresh_puts`:
no put uses a key that is on the list at that moment.  By `fresh_puts_of_distinct` these
include every sequence whose puts use pairwise distinct keys. -/

/-- C1 (strict LRU eviction): from a cache created with `max_size >= 1`, run any calls `ops`
and then a put, none of them putting a key already in the cache.  The calls return; and
when the put finds `cur_size > max_size` after its insert, the entry that
`dllist_remove_tail` removes and whose key is deleted from the index was on the list before
the put, every other key tracked before the put was put or got later than its key, and
afterwards it is neither on the list nor in the index. -/
theorem strict_lru_eviction (max_size hashsize : Int) (c0 : cache) (ops : List Op)
    (k ct : String) (co : List Nat) (len : Int)
    (hmax : 1 ≤ max_size) (h0 : cache_create max_size hashsize = some c0)
    (hf : fresh_puts c0 (ops ++ [.put k ct co len]) = true) :
    ∃ c c2, run c0 ops = some c ∧
      dllist_insert_head (alloc_entry c k ct co len).2 (alloc_entry c k ct co len).1
        = some c2 ∧
      (c2.cur_size + 1 > c2.max_size →
        ∃ item c5 e c',
          dllist_remove_tail { c2 with cur_size := c2.cur_size + 1, index := hashtable_put c2.index k (alloc_entry c k ct co len).1 } = some (item, c5) ∧
          load c5.mem (some item) = some e ∧
          c' = { c5 with index := hashtable_delete c5.index e.path } ∧
          cache_put c k ct co len = some c' ∧
          item ∈ entries c ∧ path_at c item = some e.path ∧ e.path ∈ keys c ∧
          (∀ k' ∈ keys c, k' ≠ e.path → last_use ops e.path < last_use ops k') ∧
          item ∉ entries c' ∧ hashtable_get c'.index e.path = none) := by
  obtain ⟨hI0, hC0, _, _⟩ := create_inv max_size hashsize h0 hmax
  obtain ⟨c1, L1, hr1, _, _, _⟩ := run_inv_fresh hI0 hC0 _ hf
  rw [run_append] at hr1
  cases hr : run c0 ops with
  | none => rw [hr] at hr1; cases hr1
  | some c =>
    obtain ⟨hfo, _⟩ := fresh_puts_append hf hr
    obtain ⟨c', L, hr', hI, hC, hpw⟩ := run_recency hI0 ops hfo
    rw [hr] at hr'
    cases hr'
    obtain ⟨c2, hins, hsz2, hmax2, hev⟩ := cache_put_evict_steps hI k ct co len
    refine ⟨c, c2, rfl, hins, ?_⟩
    intro hgt
    obtain ⟨t, c5, e, hrem, hload, hput, hlast, htpath⟩ := hev hgt
    obtain ⟨c'', L', hput', hI', hL', _, _, _, _⟩ := cache_put_inv hI k ct co len
    rw [hput] at hput'
    cases hput'
    have htL : t ∈ L := List.mem_of_mem_getLast? hlast
    have hfull : ¬ c.cur_size < c.max_size := by omega
    rw [if_neg hfull] at hL'
    refine ⟨t, c5, e, _, hrem, hload, rfl, hput, ?_, htpath, ?_, ?_, ?_, ?_⟩
    · rw [hI.links.entries_eq]; exact htL
    · exact (mem_keys hI.links _).2 ⟨t, htL, htpath⟩
    · intro k' hk' hne
      obtain ⟨q, hq, hqk⟩ := (mem_keys hI.links k').1 hk'
      have hqt : q ≠ t := by
        intro hx
        rw [hx, htpath] at hqk
        exact hne (Option.some.inj hqk).symm
      have hqD : q ∈ L.dropLast := mem_dropLast_of_ne hlast hq hqt
      have hsplit := List.dropLast_append_getLast? t hlast
      rw [hI.links.keys_eq, ← hsplit, List.filterMap_append, List.pairwise_append] at hpw
      apply hpw.2.2 k' (List.mem_filterMap.2 ⟨q, hqD, hqk⟩) e.path
      exact List.mem_filterMap.2 ⟨t, by simp, htpath⟩
    · rw [hI'.links.entries_eq, hL']
      intro hx
      rcases List.mem_cons.1 hx with h1 | h1
      · exact absurd (h1 ▸ hI.links.lt htL) (lt_irrefl _)
      · exact not_mem_dropLast hlast hI.links.nodup h1
    · show hashtable_get (hashtable_delete c5.index e.path) e.path = none
      rw [hashtable_get_delete, if_pos rfl]

theorem strict_lru_eviction_witness :
    ∃ c c2, run { mem := [], index := [], head := none, tail := none, cur_size := 0, max_size := 2 }
          [.put "a" "text" [1] 1, .put "b" "text" [2] 1, .get "a"] = some c ∧
      dllist_insert_head (alloc_entry c "c" "text" [3] 1).2 (alloc_entry c "c" "text" [3] 1).1
        = some c2 ∧
      (c2.cur_size + 1 > c2.max_size →
        ∃ item c5 e c',
          dllist_remove_tail { c2 with cur_size := c2.cur_size + 1, index := hashtable_put c2.index "c" (alloc_entry c "c" "text" [3] 1).1 } = some (item, c5) ∧
          load c5.mem (some item) = some e ∧
          c' = { c5 with index := hashtable_delete c5.index e.path } ∧
          cache_put c "c" "text" [3] 1 = some c' ∧
          item ∈ entries c ∧ path_at c item = some e.path ∧ e.path ∈ keys c ∧
          (∀ k' ∈ keys c, k' ≠ e.path →
            last_use [.put "a" "text" [1] 1, .put "b" "text" [2] 1, .get "a"] e.path <
              last_use [.put "a" "text" [1] 1, .put "b" "text" [2] 1, .get "a"] k') ∧
          item ∉ entries c' ∧ hashtable_get c'.index e.path = none) :=
  strict_lru_eviction 2 0 _ [.put "a" "text" [1] 1, .put "b" "text" [2] 1, .get "a"]
    "c" "text" [3] 1 (by decide) rfl (by decide)

/-- C2 (size invariant I3): from a cache created with `max_size >= 1`, every sequence of
`cache_put`/`cache_get` calls that never puts a key already in the cache runs to completion,
and afterwards `cur_size` is the number of entries reachable from `head` by `next` and
is at most `max_size`. -/
theorem size_invariant (max_size hashsize : Int) (c0 : cache) (ops : List Op)
    (hmax : 1 ≤ max_size) (h0 : cache_create max_size hashsize = some c0)
    (hf : fresh_puts c0 ops = true) :
    ∃ c, run c0 ops = some c ∧ c.cur_size = (entries c).length ∧
      c.cur_size ≤ c.max_size ∧ c.max_size = max_size := by
  obtain ⟨hI0, hC0, hm0, _⟩ := create_inv max_size hashsize h0 hmax
  obtain ⟨c, L, hr, hI, _, hm⟩ := run_inv_fresh hI0 hC0 ops hf
  refine ⟨c, hr, ?_, hI.bound, hm.trans hm0⟩
  rw [hI.links.entries_eq]
  exact hI.size

theorem size_invariant_witness :
    ∃ c, run { mem := [], index := [], head := none, tail := none, cur_size := 0, max_size := 2 }
          [.put "a" "text" [1] 1, .put "b" "text" [2] 1, .get "a", .put "c" "text" [3] 1]
        = some c ∧
      c.cur_size = (entries c).length ∧ c.cur_size ≤ c.max_size ∧ c.max_size = 2 :=
  size_invariant 2 0 _ _ (by decide) rfl (by decide)

/-- C3 (`cache_get` on a present key): start from any well-formed state `c0`, run any calls,
and let the index of the state reached map `k` to the entry `p`.  Then `cache_get` returns
`p`; the entry carries the path `k` and the payload it had before the call; the payload of
every heap cell is still the one written when the cell was allocated (the cells of `c0`
followed by the arguments of the puts, in call order); and `p` is the head of the list,
in front of the other entries in their old order. -/
theorem cache_get_present (c0 : cache) (L0 : List Nat) (ops : List Op) (c : cache)
    (k : String) (p : Nat) (hI : Inv c0 L0) (hrun : run c0 ops = some c)
    (hk : hashtable_get c.index k = some p) :
    ∃ c' pl, cache_get c k = some (some p, c') ∧
      payload_at c' p = some pl ∧ pl.path = k ∧ payload_at c p = some pl ∧
      stored c' = stored c0 ++ put_payloads ops ∧
      c'.head = some p ∧ entries c' = p :: (entries c).erase p ∧ c'.index = c.index := by
  obtain ⟨L, hIc, hst⟩ := run_stored hI hrun
  obtain ⟨c', hg, hI', hF, _, _⟩ := cache_get_hit hIc hk
  obtain ⟨hpL, hpath⟩ := hIc.sound k p hk
  rw [path_at_eq] at hpath
  cases hpl : payload_at c p with
  | none => rw [hpl] at hpath; cases hpath
  | some pl =>
    rw [hpl] at hpath
    refine ⟨c', pl, hg, ?_, ?_, rfl, ?_, ?_, ?_, hF.index_eq⟩
    · rw [payload_at_frame hF, hpl]
    · simpa using hpath
    · show c'.mem.map _ = _
      rw [hF.stored_eq]; exact hst
    · rw [hI'.links.head_eq]; rfl
    · rw [hI'.links.entries_eq, hIc.links.entries_eq]

theorem cache_get_present_witness :
    ∃ c' pl, cache_get
        { mem := [⟨"a", "text", [1], 1, some 1, none⟩, ⟨"b", "html", [2, 3], 2, none, some 0⟩],
          index := [("b", 1), ("a", 0)], head := some 1, tail := some 0, cur_size := 2,
          max_size := 2 } "a" = some (some 0, c') ∧
      payload_at c' 0 = some pl ∧ pl.path = "a" ∧
      payload_at
        { mem := [⟨"a", "text", [1], 1, some 1, none⟩, ⟨"b", "html", [2, 3], 2, none, some 0⟩],
          index := [("b", 1), ("a", 0)], head := some 1, tail := some 0, cur_size := 2,
          max_size := 2 } 0 = some pl ∧
      stored c' = stored { mem := [], index := [], head := none, tail := none, cur_size := 0,
                           max_size := 2 } ++
        put_payloads [.put "a" "text" [1] 1, .put "b" "html" [2, 3] 2] ∧
      c'.head = some 0 ∧
      entries c' = 0 :: (entries
        { mem := [⟨"a", "text", [1], 1, some 1, none⟩, ⟨"b", "html", [2, 3], 2, none, some 0⟩],
          index := [("b", 1), ("a", 0)], head := some 1, tail := some 0, cur_size := 2,
          max_size := 2 }).erase 0 ∧
      c'.index = [("b", 1), ("a", 0)] :=
  cache_get_present { mem := [], index := [], head := none, tail := none, cur_size := 0,
                      max_size := 2 } []
    [.put "a" "text" [1] 1, .put "b" "html" [2, 3] 2] _ "a" 0
    (create_inv 2 0 rfl (by decide)).1 rfl rfl

/-- C4 (`cache_get` on an absent key): when the index has no mapping for the key,
`cache_get` returns `NULL` and the state it leaves is the state it was given, so
`cur_size`, `head`, `tail`, every link and the index are untouched. -/
theorem cache_get_absent (c : cache) (k : String) (h : hashtable_get c.index k = none) :
    cache_get c k = some (none, c) := by
  simp [cache_get, h]

theorem cache_get_absent_witness :
    cache_get { mem := [⟨"a", "text", [1], 1, none, none⟩], index := [("a", 0)],
                head := some 0, tail := some 0, cur_size := 1, max_size := 2 } "b"
      = some (none, { mem := [⟨"a", "text", [1], 1, none, none⟩], index := [("a", 0)],
                      head := some 0, tail := some 0, cur_size := 1, max_size := 2 }) :=
  cache_get_absent _ "b" (by decide)

/-- C5 (index/list consistency I1): from a cache created with `max_size >= 1`, after every
sequence of calls that never puts a key already in the cache, the keys on the recency list
are exactly the keys the index maps, every list entry carries a key, no key is on two
entries, and the index maps each key to the list entry that carries it. -/
theorem index_list_consistency (max_size hashsize : Int) (c0 : cache) (ops : List Op)
    (hmax : 1 ≤ max_size) (h0 : cache_create max_size hashsize = some c0)
    (hf : fresh_puts c0 ops = true) :
    ∃ c, run c0 ops = some c ∧
      (∀ k, k ∈ keys c ↔ hashtable_get c.index k ≠ none) ∧
      (keys c).Nodup ∧ (keys c).length = (entries c).length ∧
      (∀ p ∈ entries c, ∀ k, path_at c p = some k → hashtable_get c.index k = some p) ∧
      (∀ k p, hashtable_get c.index k = some p → p ∈ entries c ∧ path_at c p = some k) := by
  obtain ⟨hI0, hC0, _, _⟩ := create_inv max_size hashsize h0 hmax
  obtain ⟨c, L, hr, hI, hC, _⟩ := run_inv_fresh hI0 hC0 ops hf
  refine ⟨c, hr, ?_, hC.keys_nodup hI.links, ?_, ?_, ?_⟩
  · intro k
    rw [mem_keys hI.links]
    constructor
    · rintro ⟨p, hp, hpk⟩
      rw [hC p hp k hpk]
      simp
    · intro hne
      cases hg : hashtable_get c.index k with
      | none => exact absurd hg hne
      | some p => exact ⟨p, hI.sound k p hg⟩
  · rw [hI.links.keys_length, hI.links.entries_eq]
  · rw [hI.links.entries_eq]
    exact hC
  · rw [hI.links.entries_eq]
    exact hI.sound

theorem index_list_consistency_witness :
    ∃ c, run { mem := [], index := [], head := none, tail := none, cur_size := 0, max_size := 2 }
          [.put "a" "text" [1] 1, .put "b" "text" [2] 1, .get "a", .put "c" "text" [3] 1,
           .get "b", .put "b" "text" [4] 1]
        = some c ∧
      (∀ k, k ∈ keys c ↔ hashtable_get c.index k ≠ none) ∧
      (keys c).Nodup ∧ (keys c).length = (entries c).length ∧
      (∀ p ∈ entries c, ∀ k, path_at c p = some k → hashtable_get c.index k = some p) ∧
      (∀ k p, hashtable_get c.index k = some p → p ∈ entries c ∧ path_at c p = some k) :=
  index_list_consistency 2 0 _ _ (by decide) rfl (by decide)

/-- C6 (overflow scenario): put `n + 1` payloads with pairwise distinct keys, in order and
without gets in between, into a fresh cache with `max_size = n >= 1`.  The calls return;
afterwards, also after any further gets, `cache_get` of the first key returns `NULL` and
leaves the state alone, and for every later payload `cache_get` of its key returns the
entry its put created, which carries exactly that payload. -/
theorem overflow_scenario (n : Nat) (hashsize : Int) (pls : List Payload) (hn : 1 ≤ n)
    (hlen : pls.length = n + 1) (hnd : (pls.map Payload.path).Nodup) :
    ∃ c0 c, cache_create n hashsize = some c0 ∧
      run c0 (pls.map Payload.as_put) = some c ∧
      ∀ gs : List String, ∃ cg, run c (gs.map Op.get) = some cg ∧
        (∀ pl, pls.head? = some pl → cache_get cg pl.path = some (none, cg)) ∧
        (∀ i pl, 1 ≤ i → pls[i]? = some pl →
          ∃ c', cache_get cg pl.path = some (some i, c') ∧ payload_at c' i = some pl) := by
  obtain ⟨hI0, _, hm0, hmem0⟩ := create_inv n hashsize rfl (by exact_mod_cast hn)
  rcases List.eq_nil_or_concat pls with h | ⟨pls', pl, h⟩
  · subst h; simp at hlen
  rw [List.concat_eq_append] at h
  subst h
  have hlen' : pls'.length = n := by simpa using hlen
  have hnd' : (pls'.map Payload.path).Nodup ∧ pl.path ∉ pls'.map Payload.path := by
    have h := hnd
    rw [List.map_append, List.nodup_append] at h
    exact ⟨h.1, fun hx => h.2.2 hx (by simp)⟩
  obtain ⟨c, hr, hI, hC, hst, hm⟩ := run_puts_room hI0 hmem0 pls'
    (by rw [hm0, hlen']) hnd'.1
  rw [hlen'] at hI hC
  have hmemlen : c.mem.length = n := by rw [← stored_length, hst, hlen']
  obtain ⟨c', L', hput, hI', hL', hst', _, _, hC'⟩ :=
    cache_put_inv hI pl.path pl.content_type pl.content pl.content_length
  have hfull : ¬ c.cur_size < c.max_size := by
    rw [hI.size, length_descending, hm, hm0]
    omega
  rw [if_neg hfull, hmemlen] at hL'
  have hfresh : ∀ p ∈ descending n, path_at c p ≠ some pl.path := by
    intro p _ hpk
    rw [path_at_eq, payload_at_stored, hst] at hpk
    cases hq : pls'[p]? with
    | none => rw [hq] at hpk; cases hpk
    | some q =>
      rw [hq] at hpk
      have hqp : q.path = pl.path := by simpa using hpk
      exact hnd'.2 (hqp ▸ List.mem_map_of_mem _ (List.getElem?_mem hq))
  have hC'' := hC' hfresh hC
  have hstored : stored c' = pls' ++ [pl] := by
    show c'.mem.map _ = _
    rw [hst']
    show stored c ++ _ = _
    rw [hst]
  have hlast : (descending n).getLast? = some 0 := by
    obtain ⟨m, rfl⟩ : ∃ m, n = m + 1 := ⟨n - 1, by omega⟩
    exact getLast?_descending m
  have hmemL' : ∀ i, i ∈ L' ↔ (1 ≤ i ∧ i ≤ n) := by
    intro i
    rw [hL', List.mem_cons]
    constructor
    · rintro (h | h)
      · omega
      · have h1 : i ∈ descending n := List.mem_of_mem_dropLast h
        have h2 : i < n := mem_descending.1 h1
        have h3 : i ≠ 0 := fun hx => not_mem_dropLast hlast hI.links.nodup (hx ▸ h)
        omega
    · rintro ⟨h1, h2⟩
      by_cases hin : i = n
      · exact Or.inl hin
      · exact Or.inr (mem_dropLast_of_ne hlast (mem_descending.2 (by omega)) (by omega))
  refine ⟨_, c', rfl, ?_, ?_⟩
  · rw [List.map_append, run_append, hr]
    simp [run, step, Payload.as_put, hput]
  intro gs
  obtain ⟨cg, Lg, hrg, hIg, hCg, hmemg, _, hstg, _⟩ := run_gets hI' gs
  have hpath : ∀ i q, (pls' ++ [pl])[i]? = some q → path_at cg i = some q.path := by
    intro i q hq
    rw [path_at_eq, payload_at_stored, hstg, hstored, hq]
    rfl
  refine ⟨cg, hrg, ?_, ?_⟩
  · intro pl0 hhead
    apply cache_get_miss
    cases hg : hashtable_get cg.index pl0.path with
    | none => rfl
    | some p =>
      exfalso
      obtain ⟨hpL, hpp⟩ := hIg.sound _ _ hg
      have hp1 := (hmemL' p).1 ((hmemg p).1 hpL)
      have hlt : p < (pls' ++ [pl]).length := by rw [hlen]; omega
      have hq : (pls' ++ [pl])[p]? = some ((pls' ++ [pl])[p]) := List.getElem?_eq_getElem hlt
      have h0 : (pls' ++ [pl])[0]? = some pl0 := by
        rw [← List.head?_eq_getElem?]; exact hhead
      have hpq := hpath p _ hq
      rw [hpp] at hpq
      have := paths_inj hnd hq h0 (Option.some.inj hpq).symm
      omega
  · intro i q hi hq
    have hlt : i < (pls' ++ [pl]).length := (List.getElem?_eq_some.1 hq).1
    have hiL : i ∈ Lg := (hmemg i).2 ((hmemL' i).2 ⟨hi, by rw [hlen] at hlt; omega⟩)
    have hidx := hCg hC'' i hiL q.path (hpath i q hq)
    obtain ⟨c2, hg, _, hF, _, _⟩ := cache_get_hit hIg hidx
    refine ⟨c2, hg, ?_⟩
    rw [payload_at_frame hF, payload_at_stored, hstg, hstored, hq]

theorem overflow_scenario_witness :
    ∃ c0 c, cache_create (2 : Nat) 0 = some c0 ∧
      run c0 (List.map Payload.as_put
        [⟨"A", "text", [1], 1⟩, ⟨"B", "html", [2], 1⟩, ⟨"C", "css", [3, 4], 2⟩]) = some c ∧
      ∀ gs : List String, ∃ cg, run c (gs.map Op.get) = some cg ∧
        (∀ pl, List.head? [(⟨"A", "text", [1], 1⟩ : Payload), ⟨"B", "html", [2], 1⟩,
            ⟨"C", "css", [3, 4], 2⟩] = some pl → cache_get cg pl.path = some (none, cg)) ∧
        (∀ i pl, 1 ≤ i →
          [(⟨"A", "text", [1], 1⟩ : Payload), ⟨"B", "html", [2], 1⟩,
            ⟨"C", "css", [3, 4], 2⟩][i]? = some pl →
          ∃ c', cache_get cg pl.path = some (some i, c') ∧ payload_at c' i = some pl) :=
  overflow_scenario 2 0 [⟨"A", "text", [1], 1⟩, ⟨"B", "html", [2], 1⟩, ⟨"C", "css", [3, 4], 2⟩]
    (by decide) rfl (by decide)

/-- C7 (promotion protects from eviction): on a fresh cache with `max_size = 3` and four
pairwise distinct keys, `put(A), put(B), get(A), put(C), put(D)` returns with `cur_size = 3`
and the list `D, C, A`: `B` is the entry evicted.  Afterwards, also after any further gets,
`cache_get(B)` returns `NULL`, `cache_get` of `A`, `C` and `D` each return the entry their put
created, with the payload that put stored, and `cur_size` is 3. -/
theorem promotion_protects (hashsize : Int) (A B C D tA tB tC tD : String)
    (xA xB xC xD : List Nat) (nA nB nC nD : Int)
    (hAB : A ≠ B) (hAC : A ≠ C) (hAD : A ≠ D) (hBC : B ≠ C) (hBD : B ≠ D) (hCD : C ≠ D) :
    ∃ c0 c, cache_create 3 hashsize = some c0 ∧
      run c0 [.put A tA xA nA, .put B tB xB nB, .get A, .put C tC xC nC, .put D tD xD nD]
        = some c ∧
      c.cur_size = 3 ∧ entries c = [3, 2, 0] ∧ keys c = [D, C, A] ∧
      ∀ gs : List String, ∃ cg, run c (gs.map Op.get) = some cg ∧ cg.cur_size = 3 ∧
        cache_get cg B = some (none, cg) ∧
        (∃ c', cache_get cg A = some (some 0, c') ∧ payload_at c' 0 = some ⟨A, tA, xA, nA⟩) ∧
        (∃ c', cache_get cg C = some (some 2, c') ∧ payload_at c' 2 = some ⟨C, tC, xC, nC⟩) ∧
        (∃ c', cache_get cg D = some (some 3, c') ∧ payload_at c' 3 = some ⟨D, tD, xD, nD⟩) := by
  obtain ⟨hI0, _, _, _⟩ := create_inv 3 hashsize rfl (by decide)
  obtain ⟨c1, L1, hr1, hI1, _⟩ := run_inv hI0
    [.put A tA xA nA, .put B tB xB nB, .get A, .put C tC xC nC, .put D tD xD nD]
  have hrun : run { mem := [], index := hashtable_create hashsize, head := none, tail := none, cur_size := 0, max_size := 3 }
      [.put A tA xA nA, .put B tB xB nB, .get A, .put C tC xC nC, .put D tD xD nD] =
      some { mem := [⟨A, tA, xA, nA, some 2, none⟩, ⟨B, tB, xB, nB, some 0, none⟩,
                     ⟨C, tC, xC, nC, some 3, some 0⟩, ⟨D, tD, xD, nD, none, some 2⟩],
             index := [(D, 3), (C, 2), (A, 0)], head := some 3, tail := some 0, cur_size := 3,
             max_size := 3 } := by
    simp [run, step, cache_put, cache_get, alloc_entry, dllist_insert_head, dllist_remove_tail,
      dllist_move_to_head, store, load, hashtable_put, hashtable_get, hashtable_delete,
      hashtable_create,
      hAB, hAC, hAD, hBC, hBD, hCD, hAB.symm, hAC.symm, hAD.symm, hBC.symm, hBD.symm, hCD.symm]
  have hr1' := hr1
  simp only [cache_create] at hr1'
  rw [hrun] at hr1'
  cases hr1'
  refine ⟨_, _, rfl, hrun, rfl, ?_, ?_, ?_⟩
  · simp [entries, walk]
  · simp [keys, entries, walk, path_at]
  · intro gs
    obtain ⟨cg, Lg, hrg, hIg, _, _, hidx, hst, hsz⟩ := run_gets hI1 gs
    have hiB : hashtable_get cg.index B = none := by
      rw [hidx]; simp [hashtable_get, hBC.symm, hBD.symm, hAB]
    have hiA : hashtable_get cg.index A = some 0 := by
      rw [hidx]; simp [hashtable_get, hAC.symm, hAD.symm]
    have hiC : hashtable_get cg.index C = some 2 := by
      rw [hidx]; simp [hashtable_get, hCD.symm]
    have hiD : hashtable_get cg.index D = some 3 := by
      rw [hidx]; simp [hashtable_get]
    have hpay : ∀ {c' : cache}, Frame cg c' → ∀ a, payload_at c' a =
        [(⟨A, tA, xA, nA⟩ : Payload), ⟨B, tB, xB, nB⟩, ⟨C, tC, xC, nC⟩, ⟨D, tD, xD, nD⟩][a]? := by
      intro c' hF a
      rw [payload_at_frame hF, payload_at_stored, hst]
      rfl
    obtain ⟨cA, hgA, _, hFA, _, _⟩ := cache_get_hit hIg hiA
    obtain ⟨cC, hgC, _, hFC, _, _⟩ := cache_get_hit hIg hiC
    obtain ⟨cD, hgD, _, hFD, _, _⟩ := cache_get_hit hIg hiD
    exact ⟨cg, hrg, hsz, cache_get_miss hiB, ⟨cA, hgA, by rw [hpay hFA]; rfl⟩,
      ⟨cC, hgC, by rw [hpay hFC]; rfl⟩, ⟨cD, hgD, by rw [hpay hFD]; rfl⟩⟩

theorem promotion_protects_witness :
    ∃ c0 c, cache_create 3 0 = some c0 ∧
      run c0 [.put "A" "text" [1] 1, .put "B" "text" [2] 1, .get "A", .put "C" "text" [3] 1,
              .put "D" "text" [4] 1] = some c ∧
      c.cur_size = 3 ∧ entries c = [3, 2, 0] ∧ keys c = ["D", "C", "A"] ∧
      ∀ gs : List String, ∃ cg, run c (gs.map Op.get) = some cg ∧ cg.cur_size = 3 ∧
        cache_get cg "B" = some (none, cg) ∧
        (∃ c', cache_get cg "A" = some (some 0, c') ∧
          payload_at c' 0 = some ⟨"A", "text", [1], 1⟩) ∧
        (∃ c', cache_get cg "C" = some (some 2, c') ∧
          payload_at c' 2 = some ⟨"C", "text", [3], 1⟩) ∧
        (∃ c', cache_get cg "D" = some (some 3, c') ∧
          payload_at c' 3 = some ⟨"D", "text", [4], 1⟩) :=
  promotion_protects 0 "A" "B" "C" "D" "text" "text" "text" "text" [1] [2] [3] [4] 1 1 1 1
    (by decide) (by decide) (by decide) (by decide) (by decide) (by decide)

/-- C8 (idempotence of promotion): in a well-formed state, two `cache_get` calls in a row
on the same key both return, with the same result; when the key is present its entry is
the head after the first call and after the second; and the state after the second call
is the state after the first. -/
theorem cache_get_twice (c : cache) (L : List Nat) (k : String) (hI : Inv c L) :
    ∃ r c1, cache_get c k = some (r, c1) ∧ cache_get c1 k = some (r, c1) ∧
      r = hashtable_get c.index k ∧
      (∀ p, r = some p → c1.head = some p ∧ (entries c1).head? = some p) := by
  cases hget : hashtable_get c.index k with
  | none =>
    refine ⟨none, c, cache_get_miss hget, cache_get_miss hget, rfl, ?_⟩
    intro p hp
    cases hp
  | some p =>
    obtain ⟨c1, hg, hI1, hF, _, _⟩ := cache_get_hit hI hget
    have hhead : c1.head = some p := by rw [hI1.links.head_eq]; rfl
    refine ⟨some p, c1, hg, ?_, rfl, ?_⟩
    · have hidx : hashtable_get c1.index k = some p := by rw [hF.index_eq]; exact hget
      simp [cache_get, hidx, dllist_move_to_head, hhead]
    · intro q hq
      cases hq
      exact ⟨hhead, by rw [← hI1.links.head_entries]; exact hhead⟩

theorem cache_get_twice_witness :
    ∃ r c1, cache_get
        { mem := [⟨"a", "text", [1], 1, some 1, none⟩, ⟨"b", "html", [2, 3], 2, none, some 0⟩],
          index := [("b", 1), ("a", 0)], head := some 1, tail := some 0, cur_size := 2,
          max_size := 2 } "a" = some (r, c1) ∧
      cache_get c1 "a" = some (r, c1) ∧
      r = hashtable_get [("b", 1), ("a", 0)] "a" ∧
      (∀ p, r = some p → c1.head = some p ∧ (entries c1).head? = some p) :=
  cache_get_twice _ [1, 0] "a"
    { links := ⟨by decide, ⟨_, rfl, rfl, rfl, _, rfl, rfl, rfl, trivial⟩, rfl, rfl⟩,
      size := rfl, bound := by decide, cap := by decide,
      sound := by
        intro k p h
        simp only [hashtable_get] at h
        split at h
        · cases h; subst_vars; exact ⟨by decide, rfl⟩
        · split at h
          · cases h; subst_vars; exact ⟨by decide, rfl⟩
          · cases h }

/-- C9, as the code has it: `cache_create` does not look at `max_size`; for every value,
also zero and negative ones, it returns an empty cache (no entries, empty index, `head`
and `tail` `NULL`, `cur_size` 0) whose `max_size` is the value given. -/
theorem cache_create_any (max_size hashsize : Int) :
    cache_create max_size hashsize =
      some { mem := [], index := [], head := none, tail := none, cur_size := 0,
             max_size := max_size } := rfl

/-- C9 as stated fails: for `max_size = 0` and for `max_size = -1` a cache is returned and
no error is reported. -/
theorem cache_create_zero_returns_cache :
    cache_create 0 0 =
        some { mem := [], index := [], head := none, tail := none, cur_size := 0,
               max_size := 0 } ∧
      cache_create (-1) 0 ≠ none := by
  constructor
  · rfl
  · simp [cache_create]

/-- C10 (duplicate-key put): in a well-formed state whose index maps `k` to the entry `p1`
and that has room left (`cur_size < max_size`, hence `max_size >= 2`), a second `cache_put`
under `k` returns; the list is the new entry followed by the whole old list, so it holds
two entries with key `k` (the new one at the head, `p1` still linked); `cur_size` grew
by 1; the index now maps `k` to the new entry, and `cache_get` of `k` returns the new entry
with the payload of the second put, never `p1`. -/
theorem duplicate_put (c : cache) (L : List Nat) (k ct : String) (co : List Nat) (len : Int)
    (p1 : Nat) (hI : Inv c L) (hk : hashtable_get c.index k = some p1)
    (hroom : c.cur_size < c.max_size) :
    ∃ c', cache_put c k ct co len = some c' ∧
      2 ≤ c.max_size ∧
      entries c' = c.mem.length :: entries c ∧ c'.head = some c.mem.length ∧
      p1 ∈ entries c ∧ p1 ≠ c.mem.length ∧
      path_at c' p1 = some k ∧ path_at c' c.mem.length = some k ∧
      c'.cur_size = c.cur_size + 1 ∧
      hashtable_get c'.index k = some c.mem.length ∧
      ∃ c'', cache_get c' k = some (some c.mem.length, c'') ∧
        payload_at c'' c.mem.length = some ⟨k, ct, co, len⟩ := by
  obtain ⟨hp1, hpath1⟩ := hI.sound k p1 hk
  obtain ⟨c', hput, hst, hmax, hcase⟩ := cache_put_spec hI k ct co len
  obtain ⟨c'', L', hput', hI', _, _, _, _, _⟩ := cache_put_inv hI k ct co len
  rw [hput] at hput'
  cases hput'
  rcases hcase with ⟨_, hL', hsz, hidx⟩ | ⟨hfull, _⟩
  · have hidx' : hashtable_get c'.index k = some c.mem.length := by
      rw [hidx, hashtable_get_put, if_pos rfl]
    obtain ⟨c2, hg, _, hF, _, _⟩ := cache_get_hit hI' hidx'
    have hlt : p1 < c.mem.length := hI.links.lt hp1
    have hpos : 1 ≤ c.cur_size := by
      rw [hI.size]
      cases L with
      | nil => cases hp1
      | cons x xs => simp
    refine ⟨c', hput, by omega, ?_, ?_, ?_, by omega, ?_, ?_, hsz, hidx', c2, hg, ?_⟩
    · rw [hL'.entries_eq, hI.links.entries_eq]
    · rw [hL'.head_eq]; rfl
    · rw [hI.links.entries_eq]; exact hp1
    · rw [path_at_grow hst hlt]; exact hpath1
    · rw [path_at_eq, payload_at_new hst]; rfl
    · rw [payload_at_frame hF, payload_at_new hst]
  · omega

theorem duplicate_put_witness :
    ∃ c', cache_put
        { mem := [⟨"a", "text", [1], 1, none, none⟩], index := [("a", 0)], head := some 0,
          tail := some 0, cur_size := 1, max_size := 2 } "a" "html" [7, 8] 2 = some c' ∧
      (2 : Int) ≤ 2 ∧
      entries c' = 1 :: entries
        { mem := [⟨"a", "text", [1], 1, none, none⟩], index := [("a", 0)], head := some 0,
          tail := some 0, cur_size := 1, max_size := 2 } ∧
      c'.head = some 1 ∧
      0 ∈ entries
        { mem := [⟨"a", "text", [1], 1, none, none⟩], index := [("a", 0)], head := some 0,
          tail := some 0, cur_size := 1, max_size := 2 } ∧
      0 ≠ 1 ∧
      path_at c' 0 = some "a" ∧ path_at c' 1 = some "a" ∧
      c'.cur_size = 1 + 1 ∧
      hashtable_get c'.index "a" = some 1 ∧
      ∃ c'', cache_get c' "a" = some (some 1, c'') ∧
        payload_at c'' 1 = some ⟨"a", "html", [7, 8], 2⟩ :=
  duplicate_put
    { mem := [⟨"a", "text", [1], 1, none, none⟩], index := [("a", 0)], head := some 0,
      tail := some 0, cur_size := 1, max_size := 2 } [0] "a" "html" [7, 8] 2 0
    { links := ⟨by decide, ⟨_, rfl, rfl, rfl, trivial⟩, rfl, rfl⟩,
      size := rfl, bound := by decide, cap := by decide,
      sound := by
        intro k p h
        simp only [hashtable_get] at h
        split at h
        · cases h; subst_vars; exact ⟨by decide, rfl⟩
        · cases h }
    rfl (by decide)

/-- C11, as the code has it: let the index map `k` to the entry `p1` in a well-formed state.
A second `cache_put` under `k` returns and, when it had room, leaves `p1` on the list.
After it, every sequence of calls returns, and in the state reached no key is mapped to
`p1`, so no `cache_get` returns it.  The entry is not exempt from eviction: a later
`cache_put` that finds the cache full with `p1` at the tail removes `p1` from the list,
like any other tail. -/
theorem orphan_never_returned (c : cache) (L : List Nat) (k ct : String) (co : List Nat)
    (len : Int) (p1 : Nat) (hI : Inv c L) (hk : hashtable_get c.index k = some p1) :
    ∃ c', cache_put c k ct co len = some c' ∧
      (c.cur_size < c.max_size → p1 ∈ entries c') ∧
      ∀ ops : List Op, ∃ c'', run c' ops = some c'' ∧
        (∀ k', hashtable_get c''.index k' ≠ some p1) ∧
        (∀ k' r c3, cache_get c'' k' = some (r, c3) → r ≠ some p1) ∧
        (c''.tail = some p1 → c''.cur_size = c''.max_size →
          ∀ k2 ct2 co2 len2, ∃ c3, cache_put c'' k2 ct2 co2 len2 = some c3 ∧
            p1 ∉ entries c3) := by
  obtain ⟨hp1L, hp1k⟩ := hI.sound k p1 hk
  have hp1lt : p1 < c.mem.length := hI.links.lt hp1L
  obtain ⟨c', hput, hst, _, hcase⟩ := cache_put_spec hI k ct co len
  obtain ⟨c2, L', hput2, hI', _, _, _, _, _⟩ := cache_put_inv hI k ct co len
  rw [hput] at hput2
  cases hput2
  have hlt' : p1 < c'.mem.length := by
    have h1 := congrArg List.length hst
    simp only [List.length_map, List.length_append, List.length_singleton] at h1
    omega
  have hput_ne : ∀ k', hashtable_get (hashtable_put c.index k c.mem.length) k' ≠ some p1 := by
    intro k'
    rw [hashtable_get_put]
    split
    · intro hx
      have := Option.some.inj hx
      omega
    · rename_i hkk
      intro hx
      have h2 := (hI.sound k' p1 hx).2
      rw [hp1k] at h2
      exact hkk (Option.some.inj h2)
  have hu' : ∀ k', hashtable_get c'.index k' ≠ some p1 := by
    rcases hcase with ⟨_, _, _, hidx⟩ | ⟨_, t, et, _, _, _, _, hidx⟩
    · intro k'
      rw [hidx]
      exact hput_ne k'
    · intro k'
      rw [hidx, hashtable_get_delete]
      split
      · simp
      · exact hput_ne k'
  refine ⟨c', hput, ?_, ?_⟩
  · intro hroom
    rcases hcase with ⟨_, hL1, _, _⟩ | ⟨hfull, _⟩
    · rw [hL1.entries_eq]
      exact List.mem_cons_of_mem _ hp1L
    · omega
  intro ops
  obtain ⟨c'', _, hrun, _, _⟩ := run_inv hI' ops
  obtain ⟨L'', hI'', hu'', _⟩ := run_unindexed hI' hlt' hu' hrun
  refine ⟨c'', hrun, hu'', ?_, ?_⟩
  · intro k' r c3 hg hr
    subst hr
    cases hi : hashtable_get c''.index k' with
    | none =>
      rw [cache_get_miss hi] at hg
      simp at hg
    | some q =>
      obtain ⟨c3', hg', _⟩ := cache_get_hit hI'' hi
      rw [hg'] at hg
      simp only [Option.some.injEq, Prod.mk.injEq] at hg
      exact hu'' k' (hg.1 ▸ hi)
  · intro htail hfull k2 ct2 co2 len2
    obtain ⟨c3, hput3, _, _, hcase3⟩ := cache_put_spec hI'' k2 ct2 co2 len2
    refine ⟨c3, hput3, ?_⟩
    rcases hcase3 with ⟨hlt, _⟩ | ⟨_, t, et, hlast, _, hL3, _, _⟩
    · omega
    · have ht : t = p1 := by
        have h1 := hI''.links.tail_eq
        rw [htail, hlast] at h1
        exact (Option.some.inj h1).symm
      subst ht
      rw [hL3.entries_eq]
      intro hx
      rcases List.mem_cons.1 hx with h1 | h1
      · exact absurd (h1 ▸ hI''.links.lt (List.mem_of_mem_getLast? hlast)) (lt_irrefl _)
      · exact not_mem_dropLast hlast hI''.links.nodup h1

theorem orphan_never_returned_witness :
    ∃ c', cache_put two_entry_cache "b" "css" [9] 1 = some c' ∧
      (two_entry_cache.cur_size < two_entry_cache.max_size → 1 ∈ entries c') ∧
      ∀ ops : List Op, ∃ c'', run c' ops = some c'' ∧
        (∀ k', hashtable_get c''.index k' ≠ some 1) ∧
        (∀ k' r c3, cache_get c'' k' = some (r, c3) → r ≠ some 1) ∧
        (c''.tail = some 1 → c''.cur_size = c''.max_size →
          ∀ k2 ct2 co2 len2, ∃ c3, cache_put c'' k2 ct2 co2 len2 = some c3 ∧
            1 ∉ entries c3) :=
  orphan_never_returned two_entry_cache [1, 0] "b" "css" [9] 1 1 two_entry_cache_inv rfl

/-- C11 as stated fails: with `max_size = 2`, after `put(k), put(k)` the first entry (address
0) is on the list and unindexed; the next put of another key evicts exactly that entry. -/
theorem orphan_is_evicted :
    ∃ c1 c2,
      run { mem := [], index := [], head := none, tail := none, cur_size := 0, max_size := 2 }
          [.put "k" "text" [1] 1, .put "k" "text" [2] 1] = some c1 ∧
      entries c1 = [1, 0] ∧ c1.index = [("k", 1)] ∧
      cache_put c1 "x" "text" [3] 1 = some c2 ∧
      entries c2 = [2, 1] ∧ 0 ∉ entries c2 := by
  refine ⟨_, _, rfl, ?_, ?_, rfl, ?_, ?_⟩ <;> decide

/-- C12, as the code has it: `dllist_remove_tail` has no guard.  When `tail` is `NULL` the
read of `oldtail->prev` has no entry to read and the call does not return: no error value
is produced and no state comes back. -/
theorem remove_tail_no_guard (c : cache) (h : c.tail = none) :
    load c.mem c.tail = none ∧ dllist_remove_tail c = none := by
  simp [dllist_remove_tail, load, h]

theorem remove_tail_no_guard_witness :
    load ([] : List cache_entry) none = none ∧
      dllist_remove_tail
        { mem := [], index := [], head := none, tail := none, cur_size := 0, max_size := 1 }
        = none :=
  remove_tail_no_guard
    { mem := [], index := [], head := none, tail := none, cur_size := 0, max_size := 1 } rfl

/-- C12 as stated fails: on the empty cache made by `cache_create` the call of
`dllist_remove_tail` dereferences the `NULL` tail; it returns neither an error together
with the unchanged state nor anything else. -/
theorem remove_tail_empty_faults :
    ∃ c0, cache_create 1 0 = some c0 ∧ c0.head = none ∧ c0.tail = none ∧
      dllist_remove_tail c0 = none ∧
      ¬ ∃ r, dllist_remove_tail c0 = some (r, c0) := by
  refine ⟨_, rfl, rfl, rfl, rfl, ?_⟩
  rintro ⟨r, hr⟩
  cases hr

/-- C13 (`dllist_move_to_head`): on a well-formed list with entry sequence `L` and a member
`e` (head, tail or interior), the call returns; the list is again well-formed, on the
pointers too; its sequence is `e` followed by `L` without `e`, so the other members keep
their order; `cur_size` and the index are untouched; and when `e` already is the head the
state is unchanged. -/
theorem move_to_head_effect (c : cache) (L : List Nat) (e : Nat) (hL : Links c L)
    (he : e ∈ L) :
    ∃ c', dllist_move_to_head c e = some c' ∧
      Links c' (e :: L.erase e) ∧ WellLinked c' ∧ entries c' = e :: (entries c).erase e ∧
      c'.head = some e ∧ c'.cur_size = c.cur_size ∧ c'.index = c.index ∧
      (c.head = some e → c' = c) := by
  obtain ⟨c', hmv, hL'⟩ := move_to_head_spec hL he
  obtain ⟨hF, hsz⟩ := move_to_head_frame hmv
  refine ⟨c', hmv, hL', hL'.well_linked, ?_, ?_, hsz, hF.index_eq, ?_⟩
  · rw [hL'.entries_eq, hL.entries_eq]
  · rw [hL'.head_eq]; rfl
  · intro hh
    have h2 : dllist_move_to_head c e = some c := by
      simp [dllist_move_to_head, hh]
    rw [hmv] at h2
    exact Option.some.inj h2

theorem move_to_head_effect_witness :
    ∃ c', dllist_move_to_head
        { mem := [⟨"a", "text", [1], 1, some 1, none⟩, ⟨"b", "html", [2], 1, some 2, some 0⟩,
                  ⟨"c", "css", [3], 1, none, some 1⟩],
          index := [("c", 2), ("b", 1), ("a", 0)], head := some 2, tail := some 0, cur_size := 3,
          max_size := 3 } 1 = some c' ∧
      Links c' (1 :: [2, 1, 0].erase 1) ∧ WellLinked c' ∧
      entries c' = 1 :: (entries
        { mem := [⟨"a", "text", [1], 1, some 1, none⟩, ⟨"b", "html", [2], 1, some 2, some 0⟩,
                  ⟨"c", "css", [3], 1, none, some 1⟩],
          index := [("c", 2), ("b", 1), ("a", 0)], head := some 2, tail := some 0, cur_size := 3,
          max_size := 3 }).erase 1 ∧
      c'.head = some 1 ∧ c'.cur_size = 3 ∧ c'.index = [("c", 2), ("b", 1), ("a", 0)] ∧
      ((some 2 : Option Nat) = some 1 → c' =
        { mem := [⟨"a", "text", [1], 1, some 1, none⟩, ⟨"b", "html", [2], 1, some 2, some 0⟩,
                  ⟨"c", "css", [3], 1, none, some 1⟩],
          index := [("c", 2), ("b", 1), ("a", 0)], head := some 2, tail := some 0, cur_size := 3,
          max_size := 3 }) :=
  move_to_head_effect _ [2, 1, 0] 1
    ⟨by decide, ⟨_, rfl, rfl, rfl, _, rfl, rfl, rfl, _, rfl, rfl, rfl, trivial⟩, rfl, rfl⟩
    (by decide)

/-- C14 on a one-entry list: `dllist_remove_tail` sets `tail` to `oldtail->prev`, which is
`NULL`, and then writes `cache->tail->next`: the call dereferences `NULL` and does not return
the list emptied.  A cache created with `max_size = 0` reaches this on its first
`cache_put`. -/
theorem remove_tail_single_entry_faults :
    dllist_remove_tail
        { mem := [⟨"a", "text", [1], 1, none, none⟩], index := [("a", 0)], head := some 0,
          tail := some 0, cur_size := 1, max_size := 0 } = none ∧
      (∃ c0, cache_create 0 0 = some c0 ∧ cache_put c0 "a" "text" [1] 1 = none) := by
  refine ⟨by decide, _, rfl, by decide⟩

/-- C15 (`cache_put` capacity step): in a well-formed state (`max_size >= 1`,
`cur_size <= max_size`, sound links, an index that points into the list) a put of a key that
is on no list entry returns.  With `cur_size < max_size` nothing is removed: the list is the new
entry followed by the old list, `cur_size` grows by 1, and every key that `cache_get` found
before is still found, at the same entry with the same payload.  With
`cur_size = max_size` exactly the previous tail is removed: the list is the new entry
followed by the old list without its last entry, the key of the old tail is no longer in the
index, `cur_size` stays `max_size`, and every other key that `cache_get` found before is
still found, at the same entry with the same payload. -/
theorem cache_put_capacity_step (c : cache) (L : List Nat) (k ct : String) (co : List Nat)
    (len : Int) (hI : Inv c L) (hk : k ∉ keys c) :
    ∃ c', cache_put c k ct co len = some c' ∧
      (c.cur_size < c.max_size →
        entries c' = (alloc_entry c k ct co len).1 :: entries c ∧
        c'.cur_size = c.cur_size + 1 ∧
        ∀ k' p c1, cache_get c k' = some (some p, c1) →
          ∃ c2, cache_get c' k' = some (some p, c2) ∧ payload_at c2 p = payload_at c1 p) ∧
      (c.cur_size = c.max_size →
        ∃ t kt, c.tail = some t ∧ (entries c).getLast? = some t ∧ path_at c t = some kt ∧
          entries c' = (alloc_entry c k ct co len).1 :: (entries c).dropLast ∧
          t ∉ entries c' ∧
          hashtable_get c'.index kt = none ∧ cache_get c' kt = some (none, c') ∧
          c'.cur_size = c.max_size ∧
          ∀ k' p c1, k' ≠ kt → cache_get c k' = some (some p, c1) →
            ∃ c2, cache_get c' k' = some (some p, c2) ∧ payload_at c2 p = payload_at c1 p) := by
  have hfresh : ∀ p ∈ L, path_at c p ≠ some k := fun p hp hpk =>
    hk ((mem_keys hI.links k).2 ⟨p, hp, hpk⟩)
  obtain ⟨c', hput, hst, hmax, hcase⟩ := cache_put_spec hI k ct co len
  obtain ⟨c'', L', hput', hI', _, _, _, _, _⟩ := cache_put_inv hI k ct co len
  rw [hput] at hput'
  cases hput'
  -- what a successful get before the put tells about the index
  have hget : ∀ k' p c1, cache_get c k' = some (some p, c1) →
      hashtable_get c.index k' = some p ∧ Frame c c1 := by
    intro k' p c1 hg
    cases hi : hashtable_get c.index k' with
    | none =>
      rw [cache_get_miss hi] at hg
      simp at hg
    | some q =>
      obtain ⟨c1', hg', _, hF, _, _⟩ := cache_get_hit hI hi
      rw [hg'] at hg
      simp only [Option.some.injEq, Prod.mk.injEq] at hg
      obtain ⟨hq, hc⟩ := hg
      subst hc
      exact ⟨hq ▸ rfl, hF⟩
  -- a key still indexed after the put is found again, with the old payload
  have hkeep : ∀ k' p c1, cache_get c k' = some (some p, c1) →
      hashtable_get c'.index k' = some p →
      ∃ c2, cache_get c' k' = some (some p, c2) ∧ payload_at c2 p = payload_at c1 p := by
    intro k' p c1 hg hi'
    obtain ⟨hi, hF1⟩ := hget k' p c1 hg
    obtain ⟨hpL, _⟩ := hI.sound k' p hi
    obtain ⟨c2, hg2, _, hF2, _, _⟩ := cache_get_hit hI' hi'
    refine ⟨c2, hg2, ?_⟩
    rw [payload_at_frame hF2, payload_at_frame hF1, payload_at_grow hst (hI.links.lt hpL)]
  refine ⟨c', hput, ?_, ?_⟩
  · intro hlt
    rcases hcase with ⟨_, hL', hsz, hidx⟩ | ⟨hfull, _⟩
    · refine ⟨?_, hsz, ?_⟩
      · rw [hL'.entries_eq, hI.links.entries_eq]; rfl
      · intro k' p c1 hg
        obtain ⟨hi, _⟩ := hget k' p c1 hg
        obtain ⟨hpL, hpp⟩ := hI.sound k' p hi
        apply hkeep k' p c1 hg
        rw [hidx, hashtable_get_put]
        have hkk : k ≠ k' := fun hx => hfresh p hpL (hx ▸ hpp)
        rw [if_neg hkk]
        exact hi
    · omega
  · intro hfull
    rcases hcase with ⟨hlt, _⟩ | ⟨_, t, et, hlast, het, hL', hsz, hidx⟩
    · omega
    · have htL : t ∈ L := List.mem_of_mem_getLast? hlast
      have htpath : path_at c t = some et.path := by simp [path_at, het]
      have hidx_t : hashtable_get c'.index et.path = none := by
        rw [hidx, hashtable_get_delete, if_pos rfl]
      refine ⟨t, et.path, ?_, ?_, htpath, ?_, ?_, hidx_t, cache_get_miss hidx_t, ?_, ?_⟩
      · rw [hI.links.tail_eq]; exact hlast
      · rw [hI.links.entries_eq]; exact hlast
      · rw [hL'.entries_eq, hI.links.entries_eq]; rfl
      · rw [hL'.entries_eq]
        intro hx
        rcases List.mem_cons.1 hx with h1 | h1
        · exact absurd (h1 ▸ hI.links.lt htL) (lt_irrefl _)
        · exact not_mem_dropLast hlast hI.links.nodup h1
      · rw [hsz]; exact hfull
      · intro k' p c1 hne hg
        obtain ⟨hi, _⟩ := hget k' p c1 hg
        obtain ⟨hpL, hpp⟩ := hI.sound k' p hi
        apply hkeep k' p c1 hg
        rw [hidx, hashtable_get_delete, hashtable_get_put]
        have hkk : k ≠ k' := fun hx => hfresh p hpL (hx ▸ hpp)
        rw [if_neg (Ne.symm hne), if_neg hkk]
        exact hi

theorem cache_put_capacity_step_witness :
    ∃ c', cache_put two_entry_cache "c" "css" [4] 1 = some c' ∧
      (two_entry_cache.cur_size < two_entry_cache.max_size →
        entries c' = (alloc_entry two_entry_cache "c" "css" [4] 1).1 :: entries two_entry_cache ∧
        c'.cur_size = two_entry_cache.cur_size + 1 ∧
        ∀ k' p c1, cache_get two_entry_cache k' = some (some p, c1) →
          ∃ c2, cache_get c' k' = some (some p, c2) ∧ payload_at c2 p = payload_at c1 p) ∧
      (two_entry_cache.cur_size = two_entry_cache.max_size →
        ∃ t kt, two_entry_cache.tail = some t ∧ (entries two_entry_cache).getLast? = some t ∧
          path_at two_entry_cache t = some kt ∧
          entries c' = (alloc_entry two_entry_cache "c" "css" [4] 1).1 ::
            (entries two_entry_cache).dropLast ∧
          t ∉ entries c' ∧
          hashtable_get c'.index kt = none ∧ cache_get c' kt = some (none, c') ∧
          c'.cur_size = two_entry_cache.max_size ∧
          ∀ k' p c1, k' ≠ kt → cache_get two_entry_cache k' = some (some p, c1) →
            ∃ c2, cache_get c' k' = some (some p, c2) ∧ payload_at c2 p = payload_at c1 p) :=
  cache_put_capacity_step two_entry_cache [1, 0] "c" "css" [4] 1 two_entry_cache_inv (by decide)

/-- C16 (eviction never hits a missing tail): from a cache created with `max_size >= 1`,
after any calls (duplicate keys included) a further `cache_put` gets through its insert, and
when it then finds `cur_size > max_size` the list it hands to `dllist_remove_tail` holds at
least two entries: `oldtail` and `oldtail->prev` are both allocated entries, and
`dllist_remove_tail` returns. -/
theorem eviction_tail_present (max_size hashsize : Int) (c0 : cache) (ops : List Op)
    (k ct : String) (co : List Nat) (len : Int)
    (hmax : 1 ≤ max_size) (h0 : cache_create max_size hashsize = some c0) :
    ∃ c c2, run c0 ops = some c ∧
      dllist_insert_head (alloc_entry c k ct co len).2 (alloc_entry c k ct co len).1
        = some c2 ∧
      (c2.cur_size + 1 > c2.max_size →
        2 ≤ (entries { c2 with cur_size := c2.cur_size + 1, index := hashtable_put c2.index k (alloc_entry c k ct co len).1 }).length ∧
        ∃ oldtail e a ea c5,
          c2.tail = some oldtail ∧ load c2.mem (some oldtail) = some e ∧
          e.prev = some a ∧ load c2.mem (some a) = some ea ∧
          dllist_remove_tail { c2 with cur_size := c2.cur_size + 1, index := hashtable_put c2.index k (alloc_entry c k ct co len).1 } = some (oldtail, c5)) := by
  obtain ⟨hI0, _, _, _⟩ := create_inv max_size hashsize h0 hmax
  obtain ⟨c, L, hr, hI, _⟩ := run_inv hI0 ops
  obtain ⟨c2, hins, hsz2, hmax2, hev⟩ := cache_put_evict_steps hI k ct co len
  refine ⟨c, c2, hr, hins, ?_⟩
  intro hgt
  obtain ⟨t, c5, e, hrem, _, _, hlast, _⟩ := hev hgt
  obtain ⟨e', a, ea, ht, he', hp, ha⟩ := remove_tail_some hrem
  refine ⟨?_, t, e', a, ea, c5, ht, he', hp, ha, hrem⟩
  have hnew : c.mem.length ∉ L := fun hx => absurd (hI.links.lt hx) (lt_irrefl _)
  have hL1 : Links (alloc_entry c k ct co len).2 L :=
    ⟨hI.links.nodup, seg_grow _ hI.links.chain, hI.links.head_eq, hI.links.tail_eq⟩
  have hcell : (alloc_entry c k ct co len).2.mem[(alloc_entry c k ct co len).1]? =
      some (cache_entry.mk k ct co len none none) := List.getElem?_concat_length _ _
  obtain ⟨c2', hins', hL2⟩ := insert_head_spec hL1 hnew hcell
  have hc2 : c2' = c2 := by
    have h2 : some c2' = some c2 := hins'.symm.trans hins
    exact Option.some.inj h2
  subst hc2
  have hL4 : Links { c2' with cur_size := c2'.cur_size + 1, index := hashtable_put c2'.index k (alloc_entry c k ct co len).1 } (c.mem.length :: L) :=
    hL2.congr rfl rfl rfl
  rw [hL4.entries_eq]
  cases L with
  | nil => simp at hlast
  | cons x xs => simp

theorem eviction_tail_present_witness :
    ∃ c c2, run { mem := [], index := [], head := none, tail := none, cur_size := 0, max_size := 1 }
          [.put "a" "text" [1] 1, .put "a" "text" [2] 1, .get "a"] = some c ∧
      dllist_insert_head (alloc_entry c "b" "text" [3] 1).2 (alloc_entry c "b" "text" [3] 1).1
        = some c2 ∧
      (c2.cur_size + 1 > c2.max_size →
        2 ≤ (entries { c2 with cur_size := c2.cur_size + 1, index := hashtable_put c2.index "b" (alloc_entry c "b" "text" [3] 1).1 }).length ∧
        ∃ oldtail e a ea c5,
          c2.tail = some oldtail ∧ load c2.mem (some oldtail) = some e ∧
          e.prev = some a ∧ load c2.mem (some a) = some ea ∧
          dllist_remove_tail { c2 with cur_size := c2.cur_size + 1, index := hashtable_put c2.index "b" (alloc_entry c "b" "text" [3] 1).1 } = some (oldtail, c5)) :=
  eviction_tail_present 1 0 _ [.put "a" "text" [1] 1, .put "a" "text" [2] 1, .get "a"]
    "b" "text" [3] 1 (by decide) rfl

/-- C17 (`dllist_insert_head`): on a well-formed list with entry sequence `L` and an
allocated entry `e` that is not a member, the call returns; the list is well-formed, on the
pointers too, with sequence `e` followed by `L`; `e` is the head with `prev = NULL` and
`next` the previous head; if `L` was empty `e` is also the tail and `next = NULL`;
otherwise the previous head has `prev = e` and the tail is unchanged; `cur_size` and the
index are not modified. -/
theorem insert_head_effect (c : cache) (L : List Nat) (e : Nat) (cell : cache_entry)
    (hL : Links c L) (he : e ∉ L) (hcell : c.mem[e]? = some cell) :
    ∃ c', dllist_insert_head c e = some c' ∧
      Links c' (e :: L) ∧ WellLinked c' ∧ entries c' = e :: entries c ∧
      c'.head = some e ∧ prev_at c' e = some none ∧ next_at c' e = some c.head ∧
      (c.head = none → c'.tail = some e ∧ next_at c' e = some none) ∧
      (∀ h, c.head = some h → prev_at c' h = some (some e) ∧ c'.tail = c.tail) ∧
      c'.cur_size = c.cur_size ∧ c'.index = c.index := by
  obtain ⟨c', hins, hL'⟩ := insert_head_spec hL he hcell
  obtain ⟨hF, hsz⟩ := insert_head_frame hins
  have hW := hL'.well_linked
  have hhead : c'.head = some e := by rw [hL'.head_eq]; rfl
  have hE : entries c' = e :: L := hL'.entries_eq
  have hnext : next_at c' e = some c.head := by
    obtain ⟨x, hx, _, hn, _⟩ := hL'.chain
    rw [hL.head_eq, ← headOr_none, ← hn]
    simp [next_at, hx]
  refine ⟨c', hins, hL', hW, ?_, hhead, hW.head_prev e hhead, hnext, ?_, ?_, hsz,
    hF.index_eq⟩
  · rw [hE, hL.entries_eq]
  · intro hnone
    have hLnil : L = [] := by
      have := hL.head_eq
      rw [hnone] at this
      cases L with
      | nil => rfl
      | cons a as => cases this
    subst hLnil
    exact ⟨by rw [hL'.tail_eq]; rfl, by rw [hnext, hnone]⟩
  · intro h hh
    have hLh : L.head? = some h := by rw [← hL.head_eq]; exact hh
    cases L with
    | nil => cases hLh
    | cons a as =>
      simp only [List.head?_cons, Option.some.injEq] at hLh
      subst hLh
      refine ⟨(hW.adjacent 0 e a (by rw [hE]; rfl) (by rw [hE]; simp)).2, ?_⟩
      rw [hL'.tail_eq, hL.tail_eq]
      simp

theorem insert_head_effect_witness :
    ∃ c', dllist_insert_head
        { mem := [⟨"a", "text", [1], 1, none, none⟩, ⟨"b", "html", [2], 1, none, none⟩],
          index := [("a", 0)], head := some 0, tail := some 0, cur_size := 1, max_size := 3 } 1
        = some c' ∧
      Links c' (1 :: [0]) ∧ WellLinked c' ∧
      entries c' = 1 :: entries
        { mem := [⟨"a", "text", [1], 1, none, none⟩, ⟨"b", "html", [2], 1, none, none⟩],
          index := [("a", 0)], head := some 0, tail := some 0, cur_size := 1, max_size := 3 } ∧
      c'.head = some 1 ∧ prev_at c' 1 = some none ∧ next_at c' 1 = some (some 0) ∧
      ((some 0 : Option Nat) = none → c'.tail = some 1 ∧ next_at c' 1 = some none) ∧
      (∀ h, (some 0 : Option Nat) = some h → prev_at c' h = some (some 1) ∧ c'.tail = some 0) ∧
      c'.cur_size = 1 ∧ c'.index = [("a", 0)] :=
  insert_head_effect _ [0] 1 ⟨"b", "html", [2], 1, none, none⟩
    ⟨by decide, ⟨_, rfl, rfl, rfl, trivial⟩, rfl, rfl⟩ (by decide) rfl

/-- C18 (put-then-get round trip): from a cache created with `max_size >= 1`, after any
calls and a put of `k`, none of them putting a key already in the cache, the new entry is on
the list (the put does not evict what it has just inserted) and `cache_get(k)` right after
the put returns that entry, carrying exactly the path, content type, content and length
that were put. -/
theorem put_then_get (max_size hashsize : Int) (c0 : cache) (ops : List Op)
    (k ct : String) (co : List Nat) (len : Int)
    (hmax : 1 ≤ max_size) (h0 : cache_create max_size hashsize = some c0)
    (hf : fresh_puts c0 (ops ++ [.put k ct co len]) = true) :
    ∃ c c' c'', run c0 ops = some c ∧ cache_put c k ct co len = some c' ∧
      (alloc_entry c k ct co len).1 ∈ entries c' ∧
      cache_get c' k = some (some (alloc_entry c k ct co len).1, c'') ∧
      payload_at c'' (alloc_entry c k ct co len).1 = some ⟨k, ct, co, len⟩ := by
  obtain ⟨hI0, hC0, _, _⟩ := create_inv max_size hashsize h0 hmax
  obtain ⟨c1, L1, hr1, _, _, _⟩ := run_inv_fresh hI0 hC0 _ hf
  rw [run_append] at hr1
  cases hr : run c0 ops with
  | none => rw [hr] at hr1; cases hr1
  | some c =>
    obtain ⟨hfo, hfp⟩ := fresh_puts_append hf hr
    obtain ⟨c', L, hr', hI, hC, _⟩ := run_inv_fresh hI0 hC0 ops hfo
    rw [hr] at hr'
    cases hr'
    have hfk : k ∉ keys c := by
      simp only [fresh_puts, fresh, Bool.and_eq_true, decide_eq_true_eq] at hfp
      exact hfp.1
    have hfresh : ∀ p ∈ L, path_at c p ≠ some k := fun p hp hpk =>
      hfk ((mem_keys hI.links k).2 ⟨p, hp, hpk⟩)
    obtain ⟨c', L', hput, hI', hL', hst, _, _, hC'⟩ := cache_put_inv hI k ct co len
    have hnewL : c.mem.length ∈ L' := by
      rw [hL']; split <;> simp
    have hnewpath : path_at c' c.mem.length = some k := by
      rw [path_at_eq, payload_at_new hst]; rfl
    have hidx := hC' hfresh hC c.mem.length hnewL k hnewpath
    obtain ⟨c'', hg, _, hF, _, _⟩ := cache_get_hit hI' hidx
    refine ⟨c, c', c'', rfl, hput, ?_, hg, ?_⟩
    · rw [hI'.links.entries_eq]; exact hnewL
    · show payload_at c'' c.mem.length = _
      rw [payload_at_frame hF, payload_at_new hst]

theorem put_then_get_witness :
    ∃ c c' c'', run { mem := [], index := [], head := none, tail := none, cur_size := 0, max_size := 1 }
          [.put "a" "text" [1] 1, .get "a"] = some c ∧
      cache_put c "b" "html" [2, 3] 2 = some c' ∧
      (alloc_entry c "b" "html" [2, 3] 2).1 ∈ entries c' ∧
      cache_get c' "b" = some (some (alloc_entry c "b" "html" [2, 3] 2).1, c'') ∧
      payload_at c'' (alloc_entry c "b" "html" [2, 3] 2).1 = some ⟨"b", "html", [2, 3], 2⟩ :=
  put_then_get 1 0 _ [.put "a" "text" [1] 1, .get "a"] "b" "html" [2, 3] 2
    (by decide) rfl (by decide)

/-- C19 (evicting an orphan unindexes the live entry): on a fresh cache with
`max_size = 1`, `put(k, v1)` then `put(k, v2)` returns; the eviction of the second put
removes the older entry from the list and deletes the key `k` from the index.  Afterwards
the list holds the newer entry, which carries `k` and the second payload, `cur_size` is 1,
and the index is empty: `cache_get(k)` returns `NULL` although `k` is on the list. -/
theorem orphan_eviction_unindexes (hashsize : Int) (k ct1 ct2 : String) (co1 co2 : List Nat)
    (len1 len2 : Int) :
    ∃ c0 c, cache_create 1 hashsize = some c0 ∧
      run c0 [.put k ct1 co1 len1, .put k ct2 co2 len2] = some c ∧
      entries c = [1] ∧ keys c = [k] ∧ payload_at c 1 = some ⟨k, ct2, co2, len2⟩ ∧
      c.cur_size = 1 ∧ c.index = [] ∧ hashtable_get c.index k = none ∧
      cache_get c k = some (none, c) := by
  refine ⟨{ mem := [], index := [], head := none, tail := none, cur_size := 0, max_size := 1 },
    { mem := [⟨k, ct1, co1, len1, some 1, none⟩, ⟨k, ct2, co2, len2, none, none⟩],
      index := [], head := some 1, tail := some 1, cur_size := 1, max_size := 1 },
    rfl, ?_, ?_, ?_, ?_, rfl, rfl, rfl, ?_⟩
  · simp [run, step, cache_put, alloc_entry, dllist_insert_head, dllist_remove_tail,
      store, load, hashtable_put, hashtable_get, hashtable_delete]
  · simp [entries, walk]
  · simp [keys, entries, walk, path_at]
  · simp [payload_at, cache_entry.payload]
  · simp [cache_get, hashtable_get]

/-- C20 (link well-formedness is a reachable-state invariant): from a cache created with
`max_size >= 1`, every sequence of calls, duplicate keys included, returns, and in the
state reached `head->prev` and `tail->next` are `NULL`, neighbours of the head-to-tail
sequence point at each other, `tail` is the last entry reached from `head`, the walk from
`tail` along `prev` is the reverse of the walk from `head` along `next`, and no entry
occurs twice. -/
theorem links_invariant (max_size hashsize : Int) (c0 : cache) (ops : List Op)
    (hmax : 1 ≤ max_size) (h0 : cache_create max_size hashsize = some c0) :
    ∃ c, run c0 ops = some c ∧ WellLinked c ∧ c.cur_size = (entries c).length := by
  obtain ⟨hI0, _, _, _⟩ := create_inv max_size hashsize h0 hmax
  obtain ⟨c, L, hr, hI, _⟩ := run_inv hI0 ops
  refine ⟨c, hr, hI.links.well_linked, ?_⟩
  rw [hI.links.entries_eq]
  exact hI.size

theorem links_invariant_witness :
    ∃ c, run { mem := [], index := [], head := none, tail := none, cur_size := 0, max_size := 2 }
          [.put "a" "text" [1] 1, .put "a" "text" [2] 1, .get "a", .put "b" "text" [3] 1,
           .put "a" "text" [4] 1, .get "b"] = some c ∧
      WellLinked c ∧ c.cur_size = (entries c).length :=
  links_invariant 2 0 _ _ (by decide) rfl

end CWebServer
